import Mathlib

/-!
Verification of the CFR-part citation normalizer
(`cfr_part_normalization.py`).

The Python module is embedded shallowly over `List Char`:

* Python `str` values become `List Char` (ASCII model: the `\d`, `\s`,
  `\w` regex classes, `str.strip()` and `int()` are modelled on their
  ASCII portions, which is where every citation string lives).
* The five module-level regexes are small and backtracking-free on
  their own patterns, so each is embedded as a deterministic scanner
  that matches the regex semantics position by position (leftmost,
  non-overlapping `finditer`/`search`/`findall`/`sub` behaviour).
* `int()`—the only operation in the module that can raise—is embedded
  as an `Option`-returning parser (`pyIntParse`), and the
  `try/except ValueError` fallback of `_canonical_number` is explicit.
  A second, `Except`-valued family of definitions mirrors the
  exception flow itself and is proved to always return `Except.ok`.

Inputs reaching `TITLE_SEGMENT_RE` are pre-stripped (line 114 of the
source), so the `$` in its lookahead coincides with end-of-string; the
embedding uses end-of-string there.
-/

set_option maxHeartbeats 1000000
set_option maxRecDepth 4000

/-- Convert a Lean string literal to the `List Char` representation used
throughout the embedding. -/
def strL (s : String) : List Char := s.data

/-- ASCII portion of the character class Python's `str.strip()`, `str.isspace()`
and the regex `\s` treat as whitespace: space, `\t\n\v\f\r`, and `\x1c`-`\x1f`. -/
def isPySpace (c : Char) : Bool :=
  c.toNat == 32 || (9 ≤ c.toNat && c.toNat ≤ 13) || (28 ≤ c.toNat && c.toNat ≤ 31)

/-- ASCII decimal digit, the class matched by `\d` and accepted by `int()`. -/
def isDig (c : Char) : Bool := 48 ≤ c.toNat && c.toNat ≤ 57

/-- ASCII word character, the class matched by `\w` (used for `\b` boundaries). -/
def isWordChar (c : Char) : Bool :=
  (48 ≤ c.toNat && c.toNat ≤ 57) || (65 ≤ c.toNat && c.toNat ≤ 90) ||
  (97 ≤ c.toNat && c.toNat ≤ 122) || c.toNat == 95

/-- Case-insensitive match of one subject character `c` against one lowercase
pattern character `p` (the `re.IGNORECASE` flag on ASCII letters). -/
def matchCI (p c : Char) : Bool :=
  c == p || (65 ≤ c.toNat && c.toNat ≤ 90 && c.toNat + 32 == p.toNat)

/-- The character replacement `body.replace("–", "-").replace("—", "-")`
performed at the top of `_extract_parts_from_body`. -/
def dashFix (c : Char) : Char :=
  if c = '–' ∨ c = '—' then '-' else c

/-- Python `str.strip()` (ASCII whitespace model). -/
def pyStrip (s : List Char) : List Char :=
  ((s.dropWhile isPySpace).reverse.dropWhile isPySpace).reverse

/-- Python `str.rstrip(a)` for a single strip character `a`. -/
def rstripChar (a : Char) (s : List Char) : List Char :=
  (s.reverse.dropWhile (fun c => c == a)).reverse

/-- Numeric value of an ASCII digit character. -/
def digVal (c : Char) : Nat := c.toNat - 48

/-- ASCII digit character for a value below ten. -/
def digChar : Nat → Char
  | 0 => '0' | 1 => '1' | 2 => '2' | 3 => '3' | 4 => '4'
  | 5 => '5' | 6 => '6' | 7 => '7' | 8 => '8' | _ => '9'

/-- Fuel-driven big-endian decimal digits of a natural number; with fuel above
`n` this is the digit list of Python's `str(n)`. -/
def natDigitsAux : Nat → Nat → List Char
  | 0, _ => []
  | fuel + 1, n =>
    if n < 10 then [digChar n] else natDigitsAux fuel (n / 10) ++ [digChar (n % 10)]

/-- Python `str(n)` for a natural number. -/
def pyNatRepr (n : Nat) : List Char := natDigitsAux (n + 1) n

/-- Python `str(i)` for an integer. -/
def pyIntRepr (i : Int) : List Char :=
  if i < 0 then '-' :: pyNatRepr (-i).toNat else pyNatRepr i.toNat

/-- Digit-sequence part of Python `int()`: decimal digits in which a single
underscore may stand between two digits. `acc` is the value read so far. -/
def parseDigitsU : Nat → List Char → Option Nat
  | acc, [] => some acc
  | acc, c :: cs =>
    if isDig c then parseDigitsU (acc * 10 + digVal c) cs
    else if c == '_' then
      match cs with
      | d :: ds => if isDig d then parseDigitsU (acc * 10 + digVal d) ds else none
      | [] => none
    else none

/-- Python `int(s)` on a string (ASCII model): surrounding whitespace, an
optional sign, then underscore-separated digits; `none` is `ValueError`. -/
def pyIntParse (s : List Char) : Option Int :=
  match pyStrip s with
  | [] => none
  | c :: r =>
    if c == '-' then
      match r with
      | d :: _ => if isDig d then (parseDigitsU 0 r).map (fun n => -(Int.ofNat n)) else none
      | [] => none
    else if c == '+' then
      match r with
      | d :: _ => if isDig d then (parseDigitsU 0 r).map (fun n => Int.ofNat n) else none
      | [] => none
    else if isDig c then (parseDigitsU 0 (c :: r)).map (fun n => Int.ofNat n) else none

/-- `_canonical_number`: strip, keep an empty result, trim trailing zeros then
trailing dots of a decimal, otherwise re-render through `int()` with the
`ValueError` fallback returning the stripped original. -/
def canonicalNumber (raw : List Char) : List Char :=
  let r := pyStrip raw
  if r = [] then r
  else if '.' ∈ r then rstripChar '.' (rstripChar '0' r)
  else
    match pyIntParse r with
    | some n => pyIntRepr n
    | none => r

/-- Python `range(lo, hi + 1)` as a list of integers. -/
def intRangeList (lo hi : Int) : List Int :=
  (List.range (hi + 1 - lo).toNat).map (fun k => lo + Int.ofNat k)

/-- `_expand_range`: endpoints only for decimal or unparseable bounds, swap a
descending pair, expand an inclusive integer interval unless its difference
exceeds 300, in which case only the endpoints are kept. -/
def expandRange (a b : List Char) : List (List Char) :=
  if '.' ∈ a ∨ '.' ∈ b then [canonicalNumber a, canonicalNumber b]
  else
    match pyIntParse a, pyIntParse b with
    | some x, some y =>
      let lo := if y < x then y else x
      let hi := if y < x then x else y
      if 300 < hi - lo then [pyIntRepr lo, pyIntRepr hi]
      else (intRangeList lo hi).map pyIntRepr
    | _, _ => [canonicalNumber a, canonicalNumber b]


/-- Word-boundary test used right after a word character: `\b` holds there
iff the following character is absent or a non-word character. -/
def notWordStart : List Char → Bool
  | [] => true
  | c :: _ => !(isWordChar c)

/-- Case-insensitive literal prefix match of a lowercase pattern. -/
def prefixCI : List Char → List Char → Bool
  | [], _ => true
  | _ :: _, [] => false
  | p :: ps, c :: cs => matchCI p c && prefixCI ps cs

/-- The `<number>` atom `\d{1,4}(?:\.\d+)?` of `RANGE_RE`/`NUMBER_RE` matched
greedily at the head of `s`; returns the matched text and the remainder.
A digit run longer than four characters can never match (greedy matching
plus the adjacent-digit guards rule every shorter split out). -/
def numAt (s : List Char) : Option (List Char × List Char) :=
  let ds := s.takeWhile isDig
  if ds.length == 0 || 4 < ds.length then none
  else
    match s.drop ds.length with
    | '.' :: r2 =>
      let fs := r2.takeWhile isDig
      if fs.length == 0 then some (ds, s.drop ds.length)
      else some (ds ++ '.' :: fs, r2.drop fs.length)
    | r1 => some (ds, r1)

/-- The separator alternation `(?:-|to|through|thru)` of `RANGE_RE` matched at
the head of `s` (case-insensitive); returns the remainder after it. -/
def sepAt (s : List Char) : Option (List Char) :=
  match s with
  | '-' :: rest => some rest
  | _ =>
    if prefixCI (strL ("through")) s then some (s.drop 7)
    else if prefixCI (strL ("thru")) s then some (s.drop 4)
    else if prefixCI (strL ("to")) s then some (s.drop 2)
    else none

/-- `RANGE_RE` matched at the head of `s` (the caller checks the `(?<!\d)`
lookbehind); returns both captured numbers and the remainder. The trailing
`(?!\d)` is inherent: a match's number atoms end at maximal digit runs. -/
def rangeMatchAt (s : List Char) : Option (List Char × List Char × List Char) :=
  match numAt s with
  | none => none
  | some (n1, r1) =>
    match sepAt (r1.dropWhile isPySpace) with
    | none => none
    | some r3 =>
      match numAt (r3.dropWhile isPySpace) with
      | none => none
      | some (n2, r5) => some (n1, n2, r5)

/-- `RANGE_RE.finditer`: left-to-right, non-overlapping; `prevD` says whether
the character before the current position is a digit (the lookbehind). -/
def rangeFindAux : Nat → Bool → List Char → List (List Char × List Char)
  | 0, _, _ => []
  | fuel + 1, prevD, s =>
    match s with
    | [] => []
    | c :: rest =>
      if prevD then rangeFindAux fuel (isDig c) rest
      else
        match rangeMatchAt s with
        | some (n1, n2, r5) => (n1, n2) :: rangeFindAux fuel true r5
        | none => rangeFindAux fuel (isDig c) rest

/-- All `RANGE_RE` matches of `s` in order, as (group 1, group 2) pairs. -/
def rangeFind (s : List Char) : List (List Char × List Char) :=
  rangeFindAux s.length false s

/-- `RANGE_RE.sub(" ", s)`: every match replaced by one space. -/
def rangeSubAux : Nat → Bool → List Char → List Char
  | 0, _, s => s
  | fuel + 1, prevD, s =>
    match s with
    | [] => []
    | c :: rest =>
      if prevD then c :: rangeSubAux fuel (isDig c) rest
      else
        match rangeMatchAt s with
        | some (_, _, r5) => ' ' :: rangeSubAux fuel true r5
        | none => c :: rangeSubAux fuel (isDig c) rest

/-- `RANGE_RE.sub(" ", s)` with the fuel instantiated. -/
def rangeSubFull (s : List Char) : List Char := rangeSubAux s.length false s

/-- `NUMBER_RE.findall`: every standalone number, left to right. -/
def numberFindAux : Nat → Bool → List Char → List (List Char)
  | 0, _, _ => []
  | fuel + 1, prevD, s =>
    match s with
    | [] => []
    | c :: rest =>
      if prevD then numberFindAux fuel (isDig c) rest
      else
        match numAt s with
        | some (n, r) => n :: numberFindAux fuel true r
        | none => numberFindAux fuel (isDig c) rest

/-- All `NUMBER_RE` matches of `s` in order. -/
def numberFind (s : List Char) : List (List Char) :=
  numberFindAux s.length false s

/-- `PART_HINT_RE` (`\bPart(?:s)?\b`) matched at the head of `s`; the caller
checks the leading boundary. The optional `s` is greedy, and since `s` is a
word character no backtracking can rescue a failed boundary after it. -/
def matchPartHintAt (s : List Char) : Bool :=
  prefixCI (strL ("part")) s &&
  (match s.drop 4 with
   | [] => true
   | c :: r2 => if c == 's' || c == 'S' then notWordStart r2 else !(isWordChar c))

/-- `PART_HINT_RE.search`: index of the leftmost match, walking with the
word-ness of the previous character for the leading `\b`. -/
def partHintFindAux : Bool → Nat → List Char → Option Nat
  | _, _, [] => none
  | prevW, i, c :: rest =>
    if !prevW && matchPartHintAt (c :: rest) then some i
    else partHintFindAux (isWordChar c) (i + 1) rest

/-- Index of the first `\bPart(?:s)?\b` occurrence, if any. -/
def partHintFind (s : List Char) : Option Nat := partHintFindAux false 0 s

/-- One literal stop-word alternative followed by the trailing `\b`. -/
def stopLit (pat : List Char) (s : List Char) : Bool :=
  prefixCI pat s && notWordStart (s.drop pat.length)

/-- `\s+` then a literal then the trailing `\b` (used by `parts?\s+of` and
`fr\s+doc`); at least one whitespace character is required. -/
def wsThen (pat : List Char) (s : List Char) : Bool :=
  match s with
  | c :: _ =>
    isPySpace c &&
    (prefixCI pat (s.dropWhile isPySpace) &&
     notWordStart ((s.dropWhile isPySpace).drop pat.length))
  | [] => false

/-- The `parts?\s+of` stop-word alternative. -/
def stopPartsOf (s : List Char) : Bool :=
  prefixCI (strL ("part")) s &&
  (match s.drop 4 with
   | c :: r2 => if c == 's' || c == 'S' then wsThen (strL ("of")) r2 else wsThen (strL ("of")) (s.drop 4)
   | [] => false)

/-- Consume one optional literal dot (`\.?`). -/
def optDot : List Char → List Char
  | '.' :: r => r
  | s => s

/-- The `u\.?s\.?c\.?` stop-word alternative with its trailing `\b`: after the
`c`, a following dot always yields a match (consumed when a word character
follows it, given back to place the boundary directly after `c` otherwise). -/
def stopUsc (s : List Char) : Bool :=
  match s with
  | [] => false
  | u :: r1 =>
    matchCI 'u' u &&
    (match optDot r1 with
     | [] => false
     | sC :: r3 =>
       matchCI 's' sC &&
       (match optDot r3 with
        | [] => false
        | cC :: r5 =>
          matchCI 'c' cC &&
          (match r5 with
           | '.' :: _ => true
           | _ => notWordStart r5)))

/-- The `fr\s+doc` stop-word alternative. -/
def stopFrDoc (s : List Char) : Bool :=
  prefixCI (strL ("fr")) s && wsThen (strL ("doc")) (s.drop 2)

/-- The `rins?` stop-word alternative. -/
def stopRins (s : List Char) : Bool :=
  prefixCI (strL ("rin")) s &&
  (match s.drop 3 with
   | [] => true
   | c :: r2 => if c == 's' || c == 'S' then notWordStart r2 else !(isWordChar c))

/-- `STOP_WORD_RE` matched at the head of `s` (leading `\b` checked by the
caller; every alternative starts with a word character). -/
def stopMatchAt (s : List Char) : Bool :=
  stopLit (strL ("subchapter")) s || stopLit (strL ("chapter")) s ||
  stopLit (strL ("section")) s || stopPartsOf s || stopUsc s ||
  stopFrDoc s || stopRins s

/-- `STOP_WORD_RE.search`: index of the leftmost stop-phrase match. -/
def stopWordFindAux : Bool → Nat → List Char → Option Nat
  | _, _, [] => none
  | prevW, i, c :: rest =>
    if !prevW && stopMatchAt (c :: rest) then some i
    else stopWordFindAux (isWordChar c) (i + 1) rest

/-- Index of the first stop-phrase occurrence, if any. -/
def stopWordFind (s : List Char) : Option Nat := stopWordFindAux false 0 s

/-- The shared token loop of `_extract_parts_from_body`: canonicalize each
token and append it unless empty or already seen. -/
def addTokens : List (List Char) → List (List Char) → List (List Char) →
    List (List Char) × List (List Char)
  | seen, parts, [] => (seen, parts)
  | seen, parts, t :: ts =>
    let n := canonicalNumber t
    if n ≠ [] ∧ n ∉ seen then addTokens (n :: seen) (parts ++ [n]) ts
    else addTokens seen parts ts

/-- Order-preserving concatenation of the images of `f` (Python's nested
`for` loops emitting into one list). -/
def concatMap (f : α → List β) : List α → List β
  | [] => []
  | x :: xs => f x ++ concatMap f xs

/-- The scan window of `_extract_parts_from_body`: from the part keyword (or
the first 120 characters when it is absent), truncated at a stop phrase. -/
def candidateOf (text : List Char) : List Char :=
  let candidate0 :=
    match partHintFind text with
    | some i => text.drop i
    | none => text.take 120
  match stopWordFind candidate0 with
  | some j => candidate0.take j
  | none => candidate0

/-- Body of `_extract_parts_from_body` once the dashes are replaced and the
text stripped: window selection, stop-phrase truncation, ranges, then
standalone numbers, all through the shared seen-set. -/
def extractFromText (text : List Char) : List (List Char) :=
  if text = [] then []
  else
    let candidate := candidateOf text
    let rtoks := concatMap (fun ab => expandRange ab.1 ab.2) (rangeFind candidate)
    let sp := addTokens [] [] rtoks
    (addTokens sp.1 sp.2 (numberFind (rangeSubFull candidate))).2

/-- `_extract_parts_from_body`. -/
def extractPartsFromBody (body : List Char) : List (List Char) :=
  extractFromText (pyStrip (body.map dashFix))

/-- `TITLE_SEGMENT_RE`'s head (`\d+\s*CFR\b`) matched at the head of `s`:
maximal digit run, optional whitespace, `CFR` case-insensitively, then a word
boundary; returns the digit run and the remainder after `CFR`. -/
def matchTitleAt (s : List Char) : Option (List Char × List Char) :=
  let ds := s.takeWhile isDig
  if ds.length == 0 then none
  else
    match (s.drop ds.length).dropWhile isPySpace with
    | c :: f :: r :: rest =>
      if matchCI 'c' c && matchCI 'f' f && matchCI 'r' r && notWordStart rest
      then some (ds, rest)
      else none
    | _ => none

/-- The lookahead `(?=\b\d+\s*CFR\b)` that delimits a lazy body; `prevW` is
the word-ness of the preceding character. -/
def lookTitle (prevW : Bool) (s : List Char) : Bool :=
  !prevW && (matchTitleAt s).isSome

/-- Split the lazy `(?P<body>.*?)` segment: everything up to the first
position where the next-title lookahead fires, or to the end of the string
(the input to `normalize_cfr_part` is stripped, so `$` is end-of-string). -/
def splitBody (prevW : Bool) : List Char → List Char × List Char
  | [] => ([], [])
  | c :: rest =>
    if lookTitle prevW (c :: rest) then ([], c :: rest)
    else
      let br := splitBody (isWordChar c) rest
      (c :: br.1, br.2)

/-- `TITLE_SEGMENT_RE.finditer`: scan left to right; on a match take the title
digits and the lazily delimited body and continue after the body. -/
def titleFindAux : Nat → List Char → List (List Char × List Char)
  | 0, _ => []
  | fuel + 1, s =>
    match s with
    | [] => []
    | _ :: rest =>
      match matchTitleAt s with
      | none => titleFindAux fuel rest
      | some (ds, after) =>
        let br := splitBody true after
        (ds, br.1) :: titleFindAux fuel br.2

/-- All `(title digits, body)` segments of the raw string, in order. -/
def titleSegments (raw : List Char) : List (List Char × List Char) :=
  titleFindAux raw.length raw

/-- A structured `{title, part}` reference. -/
structure CfrRef where
  title : List Char
  part : List Char
deriving DecidableEq, Repr

/-- The five-way parse status of `normalize_cfr_part`. -/
inductive CfrStatus
  | empty | parsed | missing_title | unparsed | no_cfr
deriving DecidableEq, Repr

/-- The result dictionary of `normalize_cfr_part`. -/
structure NormResult where
  raw : Option (List Char)
  status : CfrStatus
  references : List CfrRef
deriving DecidableEq, Repr

/-- First-seen deduplication against an initial `seen` set (the
`seen_refs` / `dict.fromkeys` idiom). -/
def keepFirst {α : Type} [DecidableEq α] : List α → List α → List α
  | _, [] => []
  | seen, x :: xs => if x ∈ seen then keepFirst seen xs else x :: keepFirst (x :: seen) xs

/-- Every reference the title/body loop of `normalize_cfr_part` emits, in
order, before the cross-title deduplication. -/
def refStream (raw : List Char) : List CfrRef :=
  concatMap (fun tb => (extractPartsFromBody tb.2).map (fun p => ⟨canonicalNumber tb.1, p⟩))
    (titleSegments raw)

/-- The accumulated `references` list: the emission stream with `(title, part)`
pairs deduplicated, first occurrence kept. -/
def accumulatedRefs (raw : List Char) : List CfrRef := keepFirst [] (refStream raw)

/-- `normalize_cfr_part`. -/
def normalizeCfrPart : Option (List Char) → NormResult
  | none => ⟨none, CfrStatus.empty, []⟩
  | some s =>
    let raw := pyStrip s
    if raw = [] then ⟨some raw, CfrStatus.empty, []⟩
    else if accumulatedRefs raw ≠ [] then ⟨some raw, CfrStatus.parsed, accumulatedRefs raw⟩
    else if titleSegments raw ≠ [] then ⟨some raw, CfrStatus.unparsed, []⟩
    else if extractPartsFromBody raw ≠ [] ∧ partHintFind raw ≠ none then
      ⟨some raw, CfrStatus.missing_title, (extractPartsFromBody raw).map (fun p => ⟨[], p⟩)⟩
    else ⟨some raw, CfrStatus.no_cfr, []⟩

/-- `str(title)` for the `int | str` argument of `extract_parts_for_title`. -/
def pyTitleStr : Int ⊕ List Char → List Char
  | Sum.inl n => pyIntRepr n
  | Sum.inr s => s

/-- `extract_parts_for_title`: the part values of references whose title
equals `str(title)` and whose part is truthy, duplicates removed. -/
def extractPartsForTitle (o : Option (List Char)) (t : Int ⊕ List Char) : List (List Char) :=
  let ts := pyTitleStr t
  keepFirst []
    (((normalizeCfrPart o).references.filter
        (fun r => r.title == ts && !(r.part == []))).map CfrRef.part)


/-- Lowercase hexadecimal digit (for `\uXXXX` escapes of `json.dumps`). -/
def hexDigitChar : Nat → Char
  | 0 => '0' | 1 => '1' | 2 => '2' | 3 => '3' | 4 => '4'
  | 5 => '5' | 6 => '6' | 7 => '7' | 8 => '8' | 9 => '9'
  | 10 => 'a' | 11 => 'b' | 12 => 'c' | 13 => 'd' | 14 => 'e' | _ => 'f'

/-- Four-digit hexadecimal rendering of a code unit. -/
def hex4 (n : Nat) : List Char :=
  [hexDigitChar (n / 4096 % 16), hexDigitChar (n / 256 % 16),
   hexDigitChar (n / 16 % 16), hexDigitChar (n % 16)]

/-- One character escaped as by `json.dumps` with its default
`ensure_ascii=True`: short escapes for the common controls, `\uXXXX` (with a
surrogate pair beyond the basic plane) outside printable ASCII. -/
def jsonEscapeChar (c : Char) : List Char :=
  if c = '"' then ['\\', '"']
  else if c = '\\' then ['\\', '\\']
  else if c = '\n' then ['\\', 'n']
  else if c = '\r' then ['\\', 'r']
  else if c = '\t' then ['\\', 't']
  else if c = '\x08' then ['\\', 'b']
  else if c = '\x0c' then ['\\', 'f']
  else if c.toNat < 32 ∨ 126 < c.toNat then
    if c.toNat < 65536 then '\\' :: 'u' :: hex4 c.toNat
    else
      ('\\' :: 'u' :: hex4 (55296 + (c.toNat - 65536) / 1024)) ++
      ('\\' :: 'u' :: hex4 (56320 + (c.toNat - 65536) % 1024))
  else [c]

/-- A JSON string literal for `s`. -/
def jsonString (s : List Char) : List Char :=
  '"' :: concatMap jsonEscapeChar s ++ ['"']

/-- One reference dictionary serialized with sorted keys. -/
def jsonRef (r : CfrRef) : List Char :=
  strL ("\x7b\"part\":") ++ jsonString r.part ++ strL (",\"title\":") ++
  jsonString r.title ++ strL ("\x7d")

/-- Comma-separated JSON array elements. -/
def jsonJoin : List (List Char) → List Char
  | [] => []
  | [x] => x
  | x :: y :: rest => x ++ ',' :: jsonJoin (y :: rest)

/-- The status tag as serialized. -/
def statusStr : CfrStatus → List Char
  | CfrStatus.empty => strL ("empty")
  | CfrStatus.parsed => strL ("parsed")
  | CfrStatus.missing_title => strL ("missing_title")
  | CfrStatus.unparsed => strL ("unparsed")
  | CfrStatus.no_cfr => strL ("no_cfr")

/-- `json.dumps(result, separators=(",", ":"), sort_keys=True)`: keys emitted
in the order raw, references, status. -/
def jsonDumpResult (r : NormResult) : List Char :=
  strL ("\x7b\"raw\":") ++
  (match r.raw with
   | none => strL ("null")
   | some s => jsonString s) ++
  strL (",\"references\":[") ++ jsonJoin (r.references.map jsonRef) ++
  strL ("],\"status\":") ++ jsonString (statusStr r.status) ++ strL ("\x7d")

/-- `normalize_cfr_part_json`. -/
def normalizeCfrPartJson (o : Option (List Char)) : List Char :=
  jsonDumpResult (normalizeCfrPart o)


/-- Exception-flow mirror of `int()`: `Except.error` is a raised
`ValueError`. Used by the `Except`-valued family below, which tracks where
the Python code could raise and where it catches. -/
def pyIntE (s : List Char) : Except (List Char) Int :=
  match pyIntParse s with
  | some n => Except.ok n
  | none => Except.error (strL ("ValueError"))

/-- `_canonical_number` with the raise/catch of its `try` block explicit: the
`except ValueError` arm converts the error back into a normal return. -/
def canonicalNumberE (raw : List Char) : Except (List Char) (List Char) :=
  let r := pyStrip raw
  if r = [] then Except.ok r
  else if '.' ∈ r then Except.ok (rstripChar '.' (rstripChar '0' r))
  else
    match pyIntE r with
    | Except.ok n => Except.ok (pyIntRepr n)
    | Except.error _ => Except.ok r

/-- `_expand_range` with its `try`/`except ValueError` explicit. -/
def expandRangeE (a b : List Char) : Except (List Char) (List (List Char)) :=
  if '.' ∈ a ∨ '.' ∈ b then do
    let x ← canonicalNumberE a
    let y ← canonicalNumberE b
    Except.ok [x, y]
  else
    match (do
        let x ← pyIntE a
        let y ← pyIntE b
        Except.ok (x, y) : Except (List Char) (Int × Int)) with
    | Except.error _ => do
      let x ← canonicalNumberE a
      let y ← canonicalNumberE b
      Except.ok [x, y]
    | Except.ok xy =>
      let lo := if xy.2 < xy.1 then xy.2 else xy.1
      let hi := if xy.2 < xy.1 then xy.1 else xy.2
      if 300 < hi - lo then Except.ok [pyIntRepr lo, pyIntRepr hi]
      else Except.ok ((intRangeList lo hi).map pyIntRepr)

/-- The token loop with exception propagation. -/
def addTokensE : List (List Char) → List (List Char) → List (List Char) →
    Except (List Char) (List (List Char) × List (List Char))
  | seen, parts, [] => Except.ok (seen, parts)
  | seen, parts, t :: ts => do
    let n ← canonicalNumberE t
    if n ≠ [] ∧ n ∉ seen then addTokensE (n :: seen) (parts ++ [n]) ts
    else addTokensE seen parts ts

/-- The range-expansion loop with exception propagation. -/
def rangeToksE : List (List Char × List Char) → Except (List Char) (List (List Char))
  | [] => Except.ok []
  | ab :: rest => do
    let e ← expandRangeE ab.1 ab.2
    let r ← rangeToksE rest
    Except.ok (e ++ r)

/-- `_extract_parts_from_body` past the replace/strip, with exception
propagation. -/
def extractFromTextE (text : List Char) : Except (List Char) (List (List Char)) :=
  if text = [] then Except.ok []
  else
    let candidate := candidateOf text
    do
      let rtoks ← rangeToksE (rangeFind candidate)
      let sp ← addTokensE [] [] rtoks
      let fin ← addTokensE sp.1 sp.2 (numberFind (rangeSubFull candidate))
      Except.ok fin.2

/-- `_extract_parts_from_body` with exception propagation. -/
def extractPartsFromBodyE (body : List Char) : Except (List Char) (List (List Char)) :=
  extractFromTextE (pyStrip (body.map dashFix))

/-- The title/body reference loop with exception propagation. -/
def segRefsE : List (List Char × List Char) → Except (List Char) (List CfrRef)
  | [] => Except.ok []
  | tb :: rest => do
    let ct ← canonicalNumberE tb.1
    let ps ← extractPartsFromBodyE tb.2
    let rs ← segRefsE rest
    Except.ok (ps.map (fun p => (⟨ct, p⟩ : CfrRef)) ++ rs)

/-- `normalize_cfr_part` with exception propagation: any `ValueError` that
escaped a callee would surface here as `Except.error`. -/
def normalizeCfrPartE : Option (List Char) → Except (List Char) NormResult
  | none => Except.ok ⟨none, CfrStatus.empty, []⟩
  | some s =>
    let raw := pyStrip s
    if raw = [] then Except.ok ⟨some raw, CfrStatus.empty, []⟩
    else do
      let stream ← segRefsE (titleSegments raw)
      let refs := keepFirst [] stream
      if refs ≠ [] then Except.ok ⟨some raw, CfrStatus.parsed, refs⟩
      else if titleSegments raw ≠ [] then Except.ok ⟨some raw, CfrStatus.unparsed, []⟩
      else do
        let inferred ← extractPartsFromBodyE raw
        if inferred ≠ [] ∧ partHintFind raw ≠ none then
          Except.ok ⟨some raw, CfrStatus.missing_title,
            inferred.map (fun p => (⟨[], p⟩ : CfrRef))⟩
        else Except.ok ⟨some raw, CfrStatus.no_cfr, []⟩

/-- `normalize_cfr_part_json` with exception propagation (`json.dumps` cannot
raise on these values, so serialization is pure). -/
def normalizeCfrPartJsonE (o : Option (List Char)) : Except (List Char) (List Char) :=
  (normalizeCfrPartE o).map jsonDumpResult

/-- `extract_parts_for_title` with exception propagation. -/
def extractPartsForTitleE (o : Option (List Char)) (t : Int ⊕ List Char) :
    Except (List Char) (List (List Char)) :=
  (normalizeCfrPartE o).map (fun r =>
    keepFirst []
      ((r.references.filter
          (fun ref => ref.title == pyTitleStr t && !(ref.part == []))).map CfrRef.part))

/-- Every reference the two extraction phases of `normalize_cfr_part` could
emit, in emission order, before any deduplication. -/
def emittedRefs : Option (List Char) → List CfrRef
  | none => []
  | some s =>
    refStream (pyStrip s) ++
      (extractPartsFromBody (pyStrip s)).map (fun p => (⟨[], p⟩ : CfrRef))

/-- Value of a digit string read by a decimal left fold (`acc` is the value
already read; digits append on the right). -/
def valAux (acc : Nat) (l : List Char) : Nat :=
  l.foldl (fun a c => a * 10 + digVal c) acc

/-- A numeral carries a superfluous leading zero when it starts with `0`
immediately followed by another digit (so `0` and `0.5` are fine). -/
def noLeadingZero (s : List Char) : Bool :=
  match s with
  | c :: d :: _ => !(c == '0' && isDig d)
  | _ => true

/-- Shape of a `NUMBER_RE`/`RANGE_RE` capture: one to four digits, optionally
followed by a dot and at least one digit. -/
def NumShape (t : List Char) : Prop :=
  ∃ ds fs, ds ≠ [] ∧ ds.length ≤ 4 ∧ (∀ c ∈ ds, isDig c = true) ∧
    (t = ds ∨ (fs ≠ [] ∧ (∀ c ∈ fs, isDig c = true) ∧ t = ds ++ '.' :: fs))

/-- Shape of every part numeral the normalizer can emit: the rendering of a
natural number below 10000, a decimal with a one-to-four digit integer part
and a fraction not ending in zero, or a bare one-to-four digit run. -/
def PartShape (p : List Char) : Prop :=
  (∃ n : Nat, n < 10000 ∧ p = pyNatRepr n) ∨
  (∃ ds fs, ds ≠ [] ∧ ds.length ≤ 4 ∧ (∀ c ∈ ds, isDig c = true) ∧
    fs ≠ [] ∧ (∀ c ∈ fs, isDig c = true) ∧ fs.getLast? ≠ some '0' ∧
    p = ds ++ '.' :: fs) ∨
  (∃ ds, ds ≠ [] ∧ ds.length ≤ 4 ∧ (∀ c ∈ ds, isDig c = true) ∧ p = ds)



/- Sanity checks of the embedding against the behaviour of the Python
   module (its unit tests and hand-verified runs). -/
example : pyNatRepr 405 = strL ("405") := by decide
example : canonicalNumber (strL ("0405")) = strL ("405") := by decide
example : canonicalNumber (strL ("412.50")) = strL ("412.5") := by decide
example : canonicalNumber (strL ("412.00")) = strL ("412") := by decide
example : canonicalNumber (strL ("007.0")) = strL ("007") := by decide
example : canonicalNumber (strL ("007")) = strL ("7") := by decide
example : expandRange (strL ("410")) (strL ("412"))
    = [strL ("410"), strL ("411"), strL ("412")] := by decide
example : expandRange (strL ("1.5")) (strL ("3"))
    = [strL ("1.5"), strL ("3")] := by decide
example : pyIntParse (strL ("1_0")) = some 10 := by decide
example : pyIntParse (strL ("-05")) = some (-5) := by decide
example : pyIntParse (strL ("1__0")) = none := by decide
example : pyIntParse (strL ("x")) = none := by decide
example : normalizeCfrPart (some (strL ("42 CFR Part 412")))
    = ⟨some (strL ("42 CFR Part 412")), CfrStatus.parsed,
       [⟨strL ("42"), strL ("412")⟩]⟩ := by decide
example : normalizeCfrPart (some (strL ("42 CFR 412")))
    = ⟨some (strL ("42 CFR 412")), CfrStatus.parsed,
       [⟨strL ("42"), strL ("412")⟩]⟩ := by decide
example : (normalizeCfrPart (some (strL ("42 CFR Parts 405, 417, 422, and 460")))).references
    = [⟨strL ("42"), strL ("405")⟩, ⟨strL ("42"), strL ("417")⟩,
       ⟨strL ("42"), strL ("422")⟩, ⟨strL ("42"), strL ("460")⟩] := by decide
example : (normalizeCfrPart (some (strL ("42 CFR Parts 410-412")))).references
    = [⟨strL ("42"), strL ("410")⟩, ⟨strL ("42"), strL ("411")⟩,
       ⟨strL ("42"), strL ("412")⟩] := by decide
example : (normalizeCfrPart (some (strL ("42 CFR Part 412; 45 CFR Part 155")))).references
    = [⟨strL ("42"), strL ("412")⟩, ⟨strL ("45"), strL ("155")⟩] := by decide
example : normalizeCfrPart (some (strL ("Part 412")))
    = ⟨some (strL ("Part 412")), CfrStatus.missing_title,
       [⟨[], strL ("412")⟩]⟩ := by decide
example : (normalizeCfrPart (some (strL ("RIN 0938-AV01")))).status = CfrStatus.no_cfr := by decide
example : normalizeCfrPart none = ⟨none, CfrStatus.empty, []⟩ := by decide
example : (normalizeCfrPart (some (strL ("")))).status = CfrStatus.empty := by decide
example : extractPartsForTitle (some (strL ("42 CFR Part 412; 45 CFR Part 155; 42 CFR 489")))
    (Sum.inl 42) = [strL ("412"), strL ("489")] := by decide
example : (normalizeCfrPart (some (strL ("42 CFR Part 12345")))).status
    = CfrStatus.unparsed := by decide
example : normalizeCfrPartJson (some (strL ("42 CFR Part 412")))
    = strL ("\x7b\"raw\":\"42 CFR Part 412\",\"references\":[\x7b\"part\":\"412\",\"title\":\"42\"\x7d],\"status\":\"parsed\"\x7d") := by decide
example : normalizeCfrPartJson none
    = strL ("\x7b\"raw\":null,\"references\":[],\"status\":\"empty\"\x7d") := by decide


theorem keepFirst_sublist {α : Type} [DecidableEq α] (seen l : List α) :
    (keepFirst seen l).Sublist l := by
  induction l generalizing seen with
  | nil => simp [keepFirst]
  | cons x xs ih =>
    simp only [keepFirst]
    split_ifs with h
    · exact (ih seen).cons x
    · exact (ih (x :: seen)).cons₂ x

theorem keepFirst_nodup {α : Type} [DecidableEq α] (l seen : List α) :
    (keepFirst seen l).Nodup ∧ ∀ x ∈ keepFirst seen l, x ∉ seen := by
  induction l generalizing seen with
  | nil => simp [keepFirst]
  | cons x xs ih =>
    simp only [keepFirst]
    split_ifs with h
    · exact ih seen
    · refine ⟨List.nodup_cons.mpr ⟨fun hx => ?_, (ih (x :: seen)).1⟩, ?_⟩
      · exact ((ih (x :: seen)).2 x hx) (List.mem_cons_self x seen)
      · intro y hy
        rcases List.mem_cons.mp hy with rfl | hy'
        · exact h
        · exact fun hys => ((ih (x :: seen)).2 y hy') (List.mem_cons_of_mem _ hys)

theorem addTokens_inv (toks : List (List Char)) :
    ∀ seen parts, parts.Nodup → (∀ x ∈ parts, x ∈ seen) →
      ((addTokens seen parts toks).2.Nodup ∧
       ∀ x ∈ (addTokens seen parts toks).2, x ∈ (addTokens seen parts toks).1) := by
  induction toks with
  | nil =>
    intro seen parts h1 h2
    simpa [addTokens] using ⟨h1, h2⟩
  | cons t ts ih =>
    intro seen parts h1 h2
    simp only [addTokens]
    split_ifs with h
    · apply ih
      · refine List.nodup_append.mpr ⟨h1, List.nodup_singleton _, ?_⟩
        intro x hx hx'
        rcases List.mem_singleton.mp hx' with rfl
        exact h.2 (h2 _ hx)
      · intro x hx
        rcases List.mem_append.mp hx with hx' | hx'
        · exact List.mem_cons_of_mem _ (h2 x hx')
        · rcases List.mem_singleton.mp hx' with rfl
          exact List.mem_cons_self _ _
    · exact ih seen parts h1 h2

theorem addTokens_twice_nodup (r n : List (List Char)) :
    ((addTokens (addTokens [] [] r).1 (addTokens [] [] r).2 n).2).Nodup := by
  have h1 := addTokens_inv r [] [] List.nodup_nil (by simp)
  exact (addTokens_inv n _ _ h1.1 h1.2).1

theorem extractFromText_nodup (text : List Char) : (extractFromText text).Nodup := by
  simp only [extractFromText]
  split_ifs with h
  · exact List.nodup_nil
  · exact addTokens_twice_nodup _ _

theorem extractPartsFromBody_nodup (b : List Char) : (extractPartsFromBody b).Nodup :=
  extractFromText_nodup _

/-- C3: for every input, the references of the normalization result contain no
two entries with equal (title, part) pairs, in every status, and they appear
as an order-preserving sublist of the undeduplicated emission stream
(first-seen insertion order). -/
theorem claim_C3 (o : Option (List Char)) :
    ((normalizeCfrPart o).references).Nodup ∧
    ((normalizeCfrPart o).references).Sublist (emittedRefs o) := by
  cases o with
  | none => simp [normalizeCfrPart, emittedRefs]
  | some s =>
    simp only [normalizeCfrPart, emittedRefs]
    split_ifs with h1 h2 h3 h4
    · simp
    · refine ⟨(keepFirst_nodup _ _).1, ?_⟩
      exact (keepFirst_sublist _ _).trans (List.sublist_append_left _ _)
    · simp
    · constructor
      · refine List.Nodup.map ?_ (extractPartsFromBody_nodup _)
        intro a b hab
        simpa using hab
      · exact List.sublist_append_right _ _
    · simp

/-- C1: exactly one of the five statuses is assigned, by the decision order of
`normalize_cfr_part`: `empty` iff the input is absent or strips to nothing;
otherwise `parsed` iff the accumulated cross-title reference list is
non-empty; otherwise `unparsed` iff a title marker was found; otherwise
`missing_title` iff re-running the extractor on the whole raw string yields a
part and a Part/Parts cue occurs in it (each part wrapped with an empty
title); otherwise `no_cfr`. The five right-hand sides are mutually exclusive
and cover all inputs, so the statuses are as well. -/
theorem claim_C1 (o : Option (List Char)) :
    ((normalizeCfrPart o).status = CfrStatus.empty ↔
      o = none ∨ ∃ s, o = some s ∧ pyStrip s = []) ∧
    ((normalizeCfrPart o).status = CfrStatus.parsed ↔
      ∃ s, o = some s ∧ pyStrip s ≠ [] ∧ accumulatedRefs (pyStrip s) ≠ []) ∧
    ((normalizeCfrPart o).status = CfrStatus.unparsed ↔
      ∃ s, o = some s ∧ pyStrip s ≠ [] ∧ accumulatedRefs (pyStrip s) = [] ∧
        titleSegments (pyStrip s) ≠ []) ∧
    ((normalizeCfrPart o).status = CfrStatus.missing_title ↔
      ∃ s, o = some s ∧ pyStrip s ≠ [] ∧ accumulatedRefs (pyStrip s) = [] ∧
        titleSegments (pyStrip s) = [] ∧ extractPartsFromBody (pyStrip s) ≠ [] ∧
        partHintFind (pyStrip s) ≠ none) ∧
    ((normalizeCfrPart o).status = CfrStatus.no_cfr ↔
      ∃ s, o = some s ∧ pyStrip s ≠ [] ∧ accumulatedRefs (pyStrip s) = [] ∧
        titleSegments (pyStrip s) = [] ∧
        ¬(extractPartsFromBody (pyStrip s) ≠ [] ∧ partHintFind (pyStrip s) ≠ none)) ∧
    (∀ s, o = some s → (normalizeCfrPart o).status = CfrStatus.missing_title →
      (normalizeCfrPart o).references
        = (extractPartsFromBody (pyStrip s)).map (fun p => (⟨[], p⟩ : CfrRef))) := by
  cases o with
  | none => simp [normalizeCfrPart]
  | some s =>
    simp only [normalizeCfrPart]
    split_ifs with h1 h2 h3 h4 <;>
      refine ⟨?_, ?_, ?_, ?_, ?_, ?_⟩ <;>
        simp_all

/-- C1 witness: on a concrete parsable citation the parsed status follows
from the decision order. -/
theorem claim_C1_witness :
    (normalizeCfrPart (some (strL ("42 CFR Part 412")))).status = CfrStatus.parsed :=
  (claim_C1 (some (strL ("42 CFR Part 412")))).2.1.mpr
    ⟨strL ("42 CFR Part 412"), rfl, by decide, by decide⟩

/-- C4 counterexample: an input with surrounding whitespace comes back with a
stripped `raw` field, not the character-for-character input. -/
theorem claim_C4_cex :
    (normalizeCfrPart (some (strL (" 42 CFR Part 412 ")))).raw
      ≠ some (strL (" 42 CFR Part 412 ")) := by decide

/-- C4 as amended: for every non-null input string the `raw` field of the
result is the input stripped of leading and trailing whitespace (hence equal
to the input exactly when the input has none). -/
theorem claim_C4 (s : List Char) :
    (normalizeCfrPart (some s)).raw = some (pyStrip s) := by
  simp only [normalizeCfrPart]
  split_ifs <;> rfl

theorem digChar_isDig : ∀ n, n < 10 → isDig (digChar n) = true := by decide

theorem digChar_ne_zero : ∀ n, n < 10 → 0 < n → digChar n ≠ '0' := by decide

theorem digVal_digChar : ∀ n, n < 10 → digVal (digChar n) = n := by decide

theorem div10_lt {n f : Nat} (h : n < f + 1) (h10 : ¬ n < 10) : n / 10 < f := by
  have := Nat.div_lt_self (show 0 < n by omega) (show 1 < 10 by omega)
  omega

theorem natDigitsAux_ne_nil : ∀ fuel n, n < fuel → natDigitsAux fuel n ≠ [] := by
  intro fuel
  induction fuel with
  | zero => intro n h; omega
  | succ f ih =>
    intro n h
    simp only [natDigitsAux]
    split_ifs with h10
    · simp
    · simp

theorem natDigitsAux_all_dig : ∀ fuel n, n < fuel →
    ∀ c ∈ natDigitsAux fuel n, isDig c = true := by
  intro fuel
  induction fuel with
  | zero => intro n h; omega
  | succ f ih =>
    intro n h c hc
    simp only [natDigitsAux] at hc
    split_ifs at hc with h10
    · rcases List.mem_singleton.mp hc with rfl
      exact digChar_isDig _ h10
    · rcases List.mem_append.mp hc with hc' | hc'
      · exact ih (n / 10) (div10_lt h h10) c hc'
      · rcases List.mem_singleton.mp hc' with rfl
        exact digChar_isDig _ (Nat.mod_lt _ (by omega))

theorem natDigitsAux_head_ne_zero : ∀ fuel n, n < fuel → 0 < n →
    (natDigitsAux fuel n).head? ≠ some '0' := by
  intro fuel
  induction fuel with
  | zero => intro n h; omega
  | succ f ih =>
    intro n h hn
    simp only [natDigitsAux]
    split_ifs with h10
    · have hz := digChar_ne_zero n h10 hn
      simp [hz]
    · have hdiv := div10_lt h h10
      have hne := natDigitsAux_ne_nil f (n / 10) hdiv
      cases hx : natDigitsAux f (n / 10) with
      | nil => exact absurd hx hne
      | cons a t =>
        have ha := ih (n / 10) hdiv (by omega)
        rw [hx] at ha
        simpa using ha

theorem natDigitsAux_val : ∀ fuel n acc, n < fuel →
    valAux acc (natDigitsAux fuel n)
      = acc * 10 ^ (natDigitsAux fuel n).length + n := by
  intro fuel
  induction fuel with
  | zero => intro n acc h; omega
  | succ f ih =>
    intro n acc h
    simp only [natDigitsAux]
    split_ifs with h10
    · simp [valAux, digVal_digChar n h10]
    · have hdiv := div10_lt h h10
      have hmod : digVal (digChar (n % 10)) = n % 10 :=
        digVal_digChar _ (Nat.mod_lt _ (by omega))
      have hfold : valAux acc (natDigitsAux f (n / 10) ++ [digChar (n % 10)])
          = valAux acc (natDigitsAux f (n / 10)) * 10 + n % 10 := by
        simp [valAux, List.foldl_append, hmod]
      rw [hfold, ih (n / 10) acc hdiv]
      have hlen : (natDigitsAux f (n / 10) ++ [digChar (n % 10)]).length
          = (natDigitsAux f (n / 10)).length + 1 := by simp
      rw [hlen, pow_succ]
      have hdm := Nat.div_add_mod n 10
      ring_nf
      omega

theorem natDigitsAux_length_le : ∀ fuel n k, n < fuel → n < 10 ^ k → 1 ≤ k →
    (natDigitsAux fuel n).length ≤ k := by
  intro fuel
  induction fuel with
  | zero => intro n k h; omega
  | succ f ih =>
    intro n k h hk h1
    simp only [natDigitsAux]
    split_ifs with h10
    · simpa using h1
    · have hk2 : 2 ≤ k := by
        by_contra hcon
        have : k = 1 := by omega
        subst this
        simp at hk
        omega
      have hdivk : n / 10 < 10 ^ (k - 1) := by
        apply Nat.div_lt_of_lt_mul
        have : 10 ^ (k - 1) * 10 = 10 ^ k := by
          rw [← pow_succ]
          congr 1
          omega
        omega
      have := ih (n / 10) (k - 1) (div10_lt h h10) hdivk (by omega)
      simp only [List.length_append, List.length_cons, List.length_nil]
      omega

theorem pyNatRepr_ne_nil (n : Nat) : pyNatRepr n ≠ [] :=
  natDigitsAux_ne_nil _ _ (by omega)

theorem pyNatRepr_all_dig (n : Nat) : ∀ c ∈ pyNatRepr n, isDig c = true :=
  natDigitsAux_all_dig _ _ (by omega)

theorem valAux_pyNatRepr (n : Nat) : valAux 0 (pyNatRepr n) = n := by
  have := natDigitsAux_val (n + 1) n 0 (by omega)
  simpa using this

theorem pyNatRepr_length_le (n k : Nat) (h : n < 10 ^ k) (h1 : 1 ≤ k) :
    (pyNatRepr n).length ≤ k :=
  natDigitsAux_length_le _ _ _ (by omega) h h1

theorem dropWhile_eq_self (p : Char → Bool) (l : List Char)
    (h : ∀ c ∈ l, p c = false) : l.dropWhile p = l := by
  cases l with
  | nil => rfl
  | cons c cs => simp [List.dropWhile_cons, h c (List.mem_cons_self c cs)]

theorem pyStrip_eq_self (l : List Char) (h : ∀ c ∈ l, isPySpace c = false) :
    pyStrip l = l := by
  unfold pyStrip
  rw [dropWhile_eq_self _ _ h,
    dropWhile_eq_self _ _ (fun c hc => h c (List.mem_reverse.mp hc)),
    List.reverse_reverse]

theorem isDig_not_space {c : Char} (h : isDig c = true) : isPySpace c = false := by
  have h1 : 48 ≤ c.toNat ∧ c.toNat ≤ 57 := by
    simpa [isDig] using h
  simp only [isPySpace, beq_eq_false_iff_ne, ne_eq, Bool.or_eq_false_iff,
    Bool.and_eq_false_iff, decide_eq_false_iff_not, not_le]
  omega

theorem isDig_ne_char {c : Char} (d : Char) (h : isDig c = true)
    (hd : isDig d = false) : (c == d) = false := by
  rw [beq_eq_false_iff_ne]
  intro he
  rw [he, hd] at h
  cases h

theorem isDig_ne_dot {c : Char} (h : isDig c = true) : ¬ c = '.' := by
  intro he
  subst he
  exact absurd h (by decide)

theorem not_dot_mem {ds : List Char} (h : ∀ c ∈ ds, isDig c = true) :
    '.' ∉ ds := fun hm => isDig_ne_dot (h _ hm) rfl

theorem parseDigitsU_all_dig (l : List Char) :
    ∀ acc, (∀ c ∈ l, isDig c = true) → parseDigitsU acc l = some (valAux acc l) := by
  induction l with
  | nil => intro acc _; rfl
  | cons c cs ih =>
    intro acc h
    rw [parseDigitsU.eq_def]
    simp only [h c (List.mem_cons_self c cs), if_true]
    exact ih _ (fun d hd => h d (List.mem_cons_of_mem _ hd))

theorem pyIntParse_digits (ds : List Char) (h1 : ds ≠ [])
    (h2 : ∀ c ∈ ds, isDig c = true) :
    pyIntParse ds = some ((valAux 0 ds : Nat) : Int) := by
  cases ds with
  | nil => exact absurd rfl h1
  | cons c r =>
    have hc := h2 c (List.mem_cons_self c r)
    have hstrip : pyStrip (c :: r) = c :: r :=
      pyStrip_eq_self _ (fun d hd => isDig_not_space (h2 d hd))
    have hminus := isDig_ne_char '-' hc (by decide)
    have hplus := isDig_ne_char '+' hc (by decide)
    simp only [pyIntParse, hstrip, hminus, hplus, hc, Bool.false_eq_true,
      if_false, if_true]
    rw [parseDigitsU_all_dig _ _ h2]
    rfl

theorem pyIntParse_pyNatRepr (n : Nat) : pyIntParse (pyNatRepr n) = some (n : Int) := by
  rw [pyIntParse_digits _ (pyNatRepr_ne_nil n) (pyNatRepr_all_dig n), valAux_pyNatRepr]

theorem pyIntParse_pyIntRepr (i : Int) : pyIntParse (pyIntRepr i) = some i := by
  unfold pyIntRepr
  split_ifs with h
  · have hall : ∀ c ∈ '-' :: pyNatRepr (-i).toNat, isPySpace c = false := by
      intro c hc
      rcases List.mem_cons.mp hc with rfl | hc'
      · decide
      · exact isDig_not_space (pyNatRepr_all_dig _ c hc')
    have hstrip := pyStrip_eq_self _ hall
    cases hx : pyNatRepr (-i).toNat with
    | nil => exact absurd hx (pyNatRepr_ne_nil _)
    | cons d t =>
      have hd : isDig d = true :=
        pyNatRepr_all_dig _ d (by rw [hx]; exact List.mem_cons_self d t)
      rw [hx] at hstrip
      simp only [pyIntParse, hstrip, hx, beq_self_eq_true, if_true, hd]
      rw [← hx, parseDigitsU_all_dig _ _ (pyNatRepr_all_dig _), valAux_pyNatRepr]
      simp only [Option.map_some']
      congr 1
      rw [Int.ofNat_eq_coe]
      omega
  · rw [pyIntParse_pyNatRepr]
    congr 1
    omega

theorem canon_digits (ds : List Char) (h1 : ds ≠ [])
    (h2 : ∀ c ∈ ds, isDig c = true) :
    canonicalNumber ds = pyNatRepr (valAux 0 ds) := by
  simp only [canonicalNumber]
  rw [pyStrip_eq_self ds (fun c hc => isDig_not_space (h2 c hc))]
  rw [if_neg h1, if_neg (not_dot_mem h2), pyIntParse_digits ds h1 h2]
  simp [pyIntRepr]

theorem canon_pyNatRepr (n : Nat) : canonicalNumber (pyNatRepr n) = pyNatRepr n := by
  rw [canon_digits _ (pyNatRepr_ne_nil n) (pyNatRepr_all_dig n), valAux_pyNatRepr]

theorem noLeadingZero_pyNatRepr (n : Nat) : noLeadingZero (pyNatRepr n) = true := by
  by_cases hn : n = 0
  · subst hn; decide
  · have h := natDigitsAux_head_ne_zero (n + 1) n (by omega) (by omega)
    rcases hx : pyNatRepr n with _ | ⟨a, t⟩
    · exact absurd hx (pyNatRepr_ne_nil n)
    · have ha : ¬ a = '0' := by
        unfold pyNatRepr at hx
        rw [hx] at h
        simpa using h
      cases t with
      | nil => rfl
      | cons b t2 => simp [noLeadingZero, ha]

theorem digVal_le {c : Char} (h : isDig c = true) : digVal c ≤ 9 := by
  simp only [isDig, Bool.and_eq_true, decide_eq_true_eq] at h
  simp only [digVal]
  omega

theorem valAux_lt (l : List Char) :
    ∀ acc, (∀ c ∈ l, isDig c = true) → valAux acc l < (acc + 1) * 10 ^ l.length := by
  induction l with
  | nil => intro acc _; simp [valAux]
  | cons c cs ih =>
    intro acc h
    have hd := digVal_le (h c (List.mem_cons_self c cs))
    have hstep : valAux acc (c :: cs) = valAux (acc * 10 + digVal c) cs := rfl
    rw [hstep]
    calc valAux (acc * 10 + digVal c) cs
        < (acc * 10 + digVal c + 1) * 10 ^ cs.length :=
          ih _ (fun d hd' => h d (List.mem_cons_of_mem _ hd'))
      _ ≤ ((acc + 1) * 10) * 10 ^ cs.length :=
          Nat.mul_le_mul_right _ (by omega)
      _ = (acc + 1) * 10 ^ (c :: cs).length := by
          rw [List.length_cons, pow_succ]
          ring

theorem valAux_lt_10000 {l : List Char} (h : ∀ c ∈ l, isDig c = true)
    (hl : l.length ≤ 4) : valAux 0 l < 10000 := by
  have := valAux_lt l 0 h
  have hp : 10 ^ l.length ≤ 10 ^ 4 := Nat.pow_le_pow_right (by omega) hl
  simp only [one_mul] at this
  calc valAux 0 l < 10 ^ l.length := by simpa using this
    _ ≤ 10 ^ 4 := hp
    _ = 10000 := by norm_num

theorem exceptOkBind {e a b : Type} (x : a) (f : a → Except e b) :
    (Except.ok x >>= f) = f x := rfl

theorem canonicalNumberE_eq (raw : List Char) :
    canonicalNumberE raw = Except.ok (canonicalNumber raw) := by
  simp only [canonicalNumberE, canonicalNumber, pyIntE]
  split_ifs with h1 h2
  · rfl
  · rfl
  · cases pyIntParse (pyStrip raw) <;> rfl

theorem expandRangeE_eq (a b : List Char) :
    expandRangeE a b = Except.ok (expandRange a b) := by
  simp only [expandRangeE, expandRange, pyIntE, canonicalNumberE_eq]
  split_ifs with h1
  · rfl
  · cases pyIntParse a <;> cases pyIntParse b <;> try rfl
    dsimp only [Bind.bind, Except.bind]
    split_ifs <;> rfl

theorem addTokensE_eq (toks : List (List Char)) :
    ∀ seen parts, addTokensE seen parts toks = Except.ok (addTokens seen parts toks) := by
  induction toks with
  | nil => intro seen parts; rfl
  | cons t ts ih =>
    intro seen parts
    simp only [addTokensE, addTokens, canonicalNumberE_eq, exceptOkBind]
    split_ifs with h
    · exact ih _ _
    · exact ih _ _

theorem rangeToksE_eq (l : List (List Char × List Char)) :
    rangeToksE l = Except.ok (concatMap (fun ab => expandRange ab.1 ab.2) l) := by
  induction l with
  | nil => rfl
  | cons ab rest ih =>
    simp only [rangeToksE, concatMap, expandRangeE_eq, ih, exceptOkBind]

theorem extractFromTextE_eq (text : List Char) :
    extractFromTextE text = Except.ok (extractFromText text) := by
  simp only [extractFromTextE, extractFromText]
  split_ifs with h
  · rfl
  · simp only [rangeToksE_eq, addTokensE_eq, exceptOkBind]

theorem extractPartsFromBodyE_eq (body : List Char) :
    extractPartsFromBodyE body = Except.ok (extractPartsFromBody body) :=
  extractFromTextE_eq _

theorem segRefsE_eq (l : List (List Char × List Char)) :
    segRefsE l = Except.ok
      (concatMap (fun tb => (extractPartsFromBody tb.2).map
        (fun p => (⟨canonicalNumber tb.1, p⟩ : CfrRef))) l) := by
  induction l with
  | nil => rfl
  | cons tb rest ih =>
    simp only [segRefsE, concatMap, canonicalNumberE_eq, extractPartsFromBodyE_eq, ih,
      exceptOkBind]

theorem normalizeCfrPartE_eq (o : Option (List Char)) :
    normalizeCfrPartE o = Except.ok (normalizeCfrPart o) := by
  cases o with
  | none => rfl
  | some s =>
    have haccum : ∀ raw, keepFirst [] (refStream raw) = accumulatedRefs raw :=
      fun _ => rfl
    have hseg : ∀ raw, segRefsE (titleSegments raw) = Except.ok (refStream raw) :=
      fun raw => segRefsE_eq _
    simp only [normalizeCfrPartE, normalizeCfrPart, hseg, extractPartsFromBodyE_eq,
      exceptOkBind, haccum]
    split_ifs with h1 h2 h3 h4 <;> rfl

/-- C8: the normalizer, the compact-JSON serializer and the per-title filter
always return normally: in the exception-flow mirror, where `int()` raising
`ValueError` is the sole failure point and the canonicalizer's fallback is
the sole handler, all three public entry points yield `Except.ok` of the pure
result on every input. -/
theorem claim_C8 (o : Option (List Char)) (t : Int ⊕ List Char) :
    normalizeCfrPartE o = Except.ok (normalizeCfrPart o) ∧
    normalizeCfrPartJsonE o = Except.ok (normalizeCfrPartJson o) ∧
    extractPartsForTitleE o t = Except.ok (extractPartsForTitle o t) := by
  refine ⟨normalizeCfrPartE_eq o, ?_, ?_⟩
  · simp only [normalizeCfrPartJsonE, normalizeCfrPartJson, normalizeCfrPartE_eq]
    rfl
  · simp only [extractPartsForTitleE, extractPartsForTitle, normalizeCfrPartE_eq]
    rfl

theorem keepFirst_mem {α : Type} [DecidableEq α] (l : List α) :
    ∀ seen x, x ∈ keepFirst seen l ↔ (x ∈ l ∧ x ∉ seen) := by
  induction l with
  | nil => intro seen x; simp [keepFirst]
  | cons a as ih =>
    intro seen x
    simp only [keepFirst]
    split_ifs with h
    · rw [ih]
      constructor
      · rintro ⟨h1, h2⟩
        exact ⟨List.mem_cons_of_mem _ h1, h2⟩
      · rintro ⟨h1, h2⟩
        rcases List.mem_cons.mp h1 with rfl | h1'
        · exact absurd h h2
        · exact ⟨h1', h2⟩
    · constructor
      · intro hx
        rcases List.mem_cons.mp hx with rfl | hx'
        · exact ⟨List.mem_cons_self _ _, h⟩
        · rcases (ih (a :: seen) x).mp hx' with ⟨h1, h2⟩
          refine ⟨List.mem_cons_of_mem _ h1, fun hs => h2 (List.mem_cons_of_mem _ hs)⟩
      · rintro ⟨h1, h2⟩
        rcases List.mem_cons.mp h1 with rfl | h1'
        · exact List.mem_cons_self _ _
        · by_cases hxa : x = a
          · subst hxa
            exact List.mem_cons_self _ _
          · refine List.mem_cons_of_mem _ ((ih (a :: seen) x).mpr ⟨h1', ?_⟩)
            intro hs
            rcases List.mem_cons.mp hs with h' | h'
            · exact hxa h'
            · exact h2 h'

theorem dropWhile_dropWhile (p : Char → Bool) (l : List Char) :
    (l.dropWhile p).dropWhile p = l.dropWhile p := by
  induction l with
  | nil => rfl
  | cons c cs ih =>
    by_cases h : p c
    · simp [List.dropWhile_cons, h, ih]
    · simp [List.dropWhile_cons, h]

theorem dropWhile_isSuffix (p : Char → Bool) (l : List Char) :
    l.dropWhile p <:+ l := by
  induction l with
  | nil => exact List.suffix_refl _
  | cons c cs ih =>
    by_cases h : p c
    · simp only [List.dropWhile_cons, h, if_true]
      exact ih.trans (List.suffix_cons c cs)
    · simp [List.dropWhile_cons, h]

theorem dropWhile_length_le (p : Char → Bool) (l : List Char) :
    (l.dropWhile p).length ≤ l.length := by
  induction l with
  | nil => simp
  | cons c cs ih =>
    rw [List.dropWhile_cons]
    split_ifs with h
    · simp only [List.length_cons]
      omega
    · simp

theorem dropWhile_eq_self_of_prefix (p : Char → Bool) {l q : List Char}
    (hl : l.dropWhile p = l) (hq : q <+: l) : q.dropWhile p = q := by
  cases q with
  | nil => rfl
  | cons c cs =>
    rcases hq with ⟨r, hr⟩
    subst hr
    rw [List.cons_append, List.dropWhile_cons] at hl
    rw [List.dropWhile_cons]
    split_ifs with h
    · exfalso
      rw [if_pos h] at hl
      have h1 := dropWhile_length_le p (cs ++ r)
      have h2 := congrArg List.length hl
      simp only [List.length_cons] at h2
      omega
    · rfl

theorem pyStrip_idem (l : List Char) : pyStrip (pyStrip l) = pyStrip l := by
  have hu := dropWhile_dropWhile isPySpace l
  have hpre : pyStrip l <+: l.dropWhile isPySpace := by
    have hs := dropWhile_isSuffix isPySpace (l.dropWhile isPySpace).reverse
    have h2 := List.reverse_prefix.mpr hs
    rw [List.reverse_reverse] at h2
    exact h2
  have hfront : (pyStrip l).dropWhile isPySpace = pyStrip l :=
    dropWhile_eq_self_of_prefix _ hu hpre
  have hrev : (pyStrip l).reverse
      = (l.dropWhile isPySpace).reverse.dropWhile isPySpace := by
    simp [pyStrip]
  have hback : (pyStrip l).reverse.dropWhile isPySpace = (pyStrip l).reverse := by
    rw [hrev, dropWhile_dropWhile]
  calc pyStrip (pyStrip l)
      = (((pyStrip l).dropWhile isPySpace).reverse.dropWhile isPySpace).reverse := rfl
    _ = ((pyStrip l).reverse.dropWhile isPySpace).reverse := by rw [hfront]
    _ = (pyStrip l).reverse.reverse := by rw [hback]
    _ = pyStrip l := List.reverse_reverse _

theorem mem_of_mem_dropWhile {p : Char → Bool} {l : List Char} {x : Char}
    (h : x ∈ l.dropWhile p) : x ∈ l := by
  induction l with
  | nil => simp at h
  | cons c cs ih =>
    rw [List.dropWhile_cons] at h
    split_ifs at h with hc
    · exact List.mem_cons_of_mem _ (ih h)
    · exact h

theorem mem_of_mem_pyStrip {l : List Char} {x : Char} (h : x ∈ pyStrip l) : x ∈ l := by
  unfold pyStrip at h
  rw [List.mem_reverse] at h
  have h1 := mem_of_mem_dropWhile h
  rw [List.mem_reverse] at h1
  exact mem_of_mem_dropWhile h1

theorem pyIntParse_pyStrip (s : List Char) : pyIntParse (pyStrip s) = pyIntParse s := by
  unfold pyIntParse
  rw [pyStrip_idem]

theorem canon_pyIntRepr (i : Int) : canonicalNumber (pyIntRepr i) = pyIntRepr i := by
  by_cases h : i < 0
  · have hform : pyIntRepr i = '-' :: pyNatRepr (-i).toNat := by
      simp [pyIntRepr, h]
    have hall : ∀ c ∈ pyIntRepr i, isPySpace c = false := by
      rw [hform]
      intro c hc
      rcases List.mem_cons.mp hc with rfl | hc'
      · decide
      · exact isDig_not_space (pyNatRepr_all_dig _ c hc')
    have hdot : '.' ∉ pyIntRepr i := by
      rw [hform]
      intro hc
      rcases List.mem_cons.mp hc with h' | h'
      · exact absurd h' (by decide)
      · exact isDig_ne_dot (pyNatRepr_all_dig _ _ h') rfl
    simp only [canonicalNumber]
    rw [pyStrip_eq_self _ hall]
    rw [if_neg (by rw [hform]; simp), if_neg hdot, pyIntParse_pyIntRepr]
  · have hform : pyIntRepr i = pyNatRepr i.toNat := by
      simp [pyIntRepr, h]
    rw [hform, canon_pyNatRepr]

/-- C6 counterexample: the string `007` is itself a canonicalizer output (on
input `007.0`, whose all-zero fraction collapses away), yet canonicalizing it
again yields `7` — the canonicalizer is not idempotent on its own range. -/
theorem claim_C6_cex :
    canonicalNumber (strL ("007.0")) = strL ("007") ∧
    canonicalNumber (strL ("007")) = strL ("7") ∧
    strL ("7") ≠ strL ("007") := by
  refine ⟨by decide, by decide, by decide⟩

/-- C6 as amended: the canonicalizer is idempotent on the output of every
input with no decimal point (the integer branch re-renders to a fixed point
and the `ValueError` fallback returns an already-stripped string); outputs of
the decimal branch need not be fixed points. -/
theorem claim_C6 (s : List Char) (h : '.' ∉ s) :
    canonicalNumber (canonicalNumber s) = canonicalNumber s := by
  have hdot : '.' ∉ pyStrip s := fun hm => h (mem_of_mem_pyStrip hm)
  by_cases h0 : pyStrip s = []
  · have hcs0 : canonicalNumber s = [] := by
      simp [canonicalNumber, h0]
    rw [hcs0]
    decide
  · have hcs : canonicalNumber s
        = match pyIntParse (pyStrip s) with
          | some n => pyIntRepr n
          | none => pyStrip s := by
      simp only [canonicalNumber, if_neg h0, if_neg hdot]
    cases hp : pyIntParse (pyStrip s) with
    | some n =>
      rw [hcs, hp]
      exact canon_pyIntRepr n
    | none =>
      rw [hcs, hp]
      simp only [canonicalNumber, pyStrip_idem, if_neg h0, if_neg hdot, hp]

/-- C6 witness: a leading-zero integer input is canonicalized to a fixed
point. -/
theorem claim_C6_witness :
    canonicalNumber (canonicalNumber (strL ("0042"))) = canonicalNumber (strL ("0042")) :=
  claim_C6 (strL ("0042")) (by decide)

/-- C2 counterexample: the inclusive interval from 1 to 301 contains 301
values — more than 300 — yet `_expand_range` emits all 301 of them, not only
the two endpoints: the guard compares the endpoint difference (here 300)
against 300, so it only fires above 301 values. -/
theorem claim_C2_cex :
    (intRangeList 1 301).length = 301 ∧
    (expandRange (strL ("1")) (strL ("301"))).length = 301 := by
  refine ⟨by decide, by decide⟩

/-- C2 as amended: a range with a decimal endpoint is not expanded and the
two canonicalized endpoints are emitted; an integer range is ordered
(swapping a descending pair) and every integer of the inclusive interval is
emitted as its decimal string — unless the difference between the endpoints
exceeds 300 (that is, the interval holds more than 301 values), in which
case exactly the two endpoints are emitted. -/
theorem claim_C2 (a b : List Char) :
    (('.' ∈ a ∨ '.' ∈ b) → expandRange a b = [canonicalNumber a, canonicalNumber b]) ∧
    (∀ x y : Int, '.' ∉ a → '.' ∉ b → pyIntParse a = some x → pyIntParse b = some y →
      (300 < max x y - min x y →
        expandRange a b = [pyIntRepr (min x y), pyIntRepr (max x y)]) ∧
      (max x y - min x y ≤ 300 →
        expandRange a b = (intRangeList (min x y) (max x y)).map pyIntRepr ∧
        (intRangeList (min x y) (max x y)).length = (max x y - min x y + 1).toNat)) := by
  constructor
  · intro h
    simp only [expandRange, if_pos h]
  · intro x y hda hdb hpa hpb
    have hcond : ¬('.' ∈ a ∨ '.' ∈ b) := by
      simp [hda, hdb]
    have hlo : (if y < x then y else x) = min x y := by
      split_ifs with hxy
      · exact (min_eq_right (le_of_lt hxy)).symm
      · exact (min_eq_left (le_of_not_lt hxy)).symm
    have hhi : (if y < x then x else y) = max x y := by
      split_ifs with hxy
      · exact (max_eq_left (le_of_lt hxy)).symm
      · exact (max_eq_right (le_of_not_lt hxy)).symm
    constructor
    · intro hgt
      simp only [expandRange, if_neg hcond, hpa, hpb, hlo, hhi, if_pos hgt]
    · intro hle
      refine ⟨?_, ?_⟩
      · simp only [expandRange, if_neg hcond, hpa, hpb, hlo, hhi,
          if_neg (not_lt.mpr hle)]
      · simp only [intRangeList, List.length_map, List.length_range]
        congr 1
        ring

/-- C2 witness: a concrete descending integer range is swapped and fully
expanded. -/
theorem claim_C2_witness :
    expandRange (strL ("412")) (strL ("410"))
      = [strL ("410"), strL ("411"), strL ("412")] := by
  have h := ((claim_C2 (strL ("412")) (strL ("410"))).2 412 410
    (by decide) (by decide) (by decide) (by decide)).2 (by decide)
  rw [h.1]
  decide

/-- C7 counterexample: with the string title argument `042` the function
filters on `str("042") = "042"` itself — the requested title is not
canonicalized — so the reference stored under the canonical title `42` is
missed and the result is empty rather than `["5"]`. -/
theorem claim_C7_cex :
    (normalizeCfrPart (some (strL ("042 CFR Part 5")))).references
      = [⟨strL ("42"), strL ("5")⟩] ∧
    canonicalNumber (strL ("042")) = strL ("42") ∧
    extractPartsForTitle (some (strL ("042 CFR Part 5"))) (Sum.inr (strL ("042"))) = [] := by
  refine ⟨by decide, by decide, by decide⟩

/-- C7 as amended: the requested title is converted with `str` — rendering
integer arguments canonically but leaving string arguments verbatim — and
the result holds exactly the non-empty part values of references whose title
equals that string, without duplicates, integer and rendered-string
arguments agreeing; the documented example returns `["412", "489"]`. -/
theorem claim_C7 (o : Option (List Char)) (t : Int ⊕ List Char) :
    (∀ p, p ∈ extractPartsForTitle o t ↔
      (p ≠ [] ∧ ∃ r ∈ (normalizeCfrPart o).references,
        r.title = pyTitleStr t ∧ r.part = p)) ∧
    (extractPartsForTitle o t).Nodup ∧
    (∀ n : Int, extractPartsForTitle o (Sum.inl n)
      = extractPartsForTitle o (Sum.inr (pyIntRepr n))) ∧
    extractPartsForTitle (some (strL ("42 CFR Part 412; 45 CFR Part 155; 42 CFR 489")))
      (Sum.inl 42) = [strL ("412"), strL ("489")] := by
  refine ⟨?_, (keepFirst_nodup _ _).1, fun n => rfl, by decide⟩
  intro p
  simp only [extractPartsForTitle, keepFirst_mem, List.not_mem_nil, not_false_iff,
    and_true, List.mem_map, List.mem_filter, Bool.and_eq_true, beq_iff_eq,
    Bool.not_eq_true', beq_eq_false_iff_ne, ne_eq]
  constructor
  · rintro ⟨r, ⟨hr, ht, hp⟩, rfl⟩
    exact ⟨hp, r, hr, ht, rfl⟩
  · rintro ⟨hp, r, hr, ht, rfl⟩
    exact ⟨r, ⟨hr, ht, hp⟩, rfl⟩

/-- C7 witness: on the documented example, membership of part `412` under
title 42 follows from the characterization. -/
theorem claim_C7_witness :
    strL ("412") ∈ extractPartsForTitle
      (some (strL ("42 CFR Part 412; 45 CFR Part 155; 42 CFR 489"))) (Sum.inl 42) :=
  ((claim_C7 (some (strL ("42 CFR Part 412; 45 CFR Part 155; 42 CFR 489")))
      (Sum.inl 42)).1 (strL ("412"))).mpr
    ⟨by decide, ⟨strL ("42"), strL ("412")⟩, by decide, by decide, rfl⟩

theorem mem_takeWhile {p : Char → Bool} {l : List Char} {x : Char}
    (h : x ∈ l.takeWhile p) : p x = true ∧ x ∈ l := by
  induction l with
  | nil => simp at h
  | cons c cs ih =>
    rw [List.takeWhile_cons] at h
    split_ifs at h with hc
    · rcases List.mem_cons.mp h with rfl | h'
      · exact ⟨hc, List.mem_cons_self _ _⟩
      · exact ⟨(ih h').1, List.mem_cons_of_mem _ (ih h').2⟩
    · simp at h

theorem takeWhile_eq_self {p : Char → Bool} {l : List Char}
    (h : ∀ x ∈ l, p x = true) : l.takeWhile p = l := by
  induction l with
  | nil => rfl
  | cons c cs ih =>
    rw [List.takeWhile_cons, if_pos (h c (List.mem_cons_self c cs))]
    rw [ih (fun x hx => h x (List.mem_cons_of_mem _ hx))]

theorem takeWhile_append_stop {p : Char → Bool} {l r : List Char} {c : Char}
    (hl : ∀ x ∈ l, p x = true) (hc : p c = false) :
    (l ++ c :: r).takeWhile p = l := by
  induction l with
  | nil => simp [List.takeWhile_cons, hc]
  | cons d ds ih =>
    rw [List.cons_append, List.takeWhile_cons,
      if_pos (hl d (List.mem_cons_self d ds)),
      ih (fun x hx => hl x (List.mem_cons_of_mem _ hx))]

theorem numAt_shape {s n r : List Char} (h : numAt s = some (n, r)) : NumShape n := by
  simp only [numAt] at h
  split_ifs at h with hg
  have hds : ∀ c ∈ s.takeWhile isDig, isDig c = true :=
    fun c hc => (mem_takeWhile hc).1
  have hlen : (s.takeWhile isDig).length ≠ 0 ∧ (s.takeWhile isDig).length ≤ 4 := by
    simp only [Bool.or_eq_true, beq_iff_eq, decide_eq_true_eq, not_or] at hg
    omega
  have hne : s.takeWhile isDig ≠ [] := by
    intro hnil
    rw [hnil] at hlen
    simp at hlen
  split at h
  · split_ifs at h with hfs
    · simp only [Option.some.injEq, Prod.mk.injEq] at h
      exact ⟨s.takeWhile isDig, [], hne, hlen.2, hds, Or.inl h.1.symm⟩
    · simp only [Option.some.injEq, Prod.mk.injEq] at h
      next r2 _ =>
        refine ⟨s.takeWhile isDig, r2.takeWhile isDig, hne, hlen.2, hds, Or.inr ?_⟩
        refine ⟨?_, fun c hc => (mem_takeWhile hc).1, h.1.symm⟩
        intro hnil
        rw [hnil] at hfs
        simp at hfs
  · simp only [Option.some.injEq, Prod.mk.injEq] at h
    exact ⟨s.takeWhile isDig, [], hne, hlen.2, hds, Or.inl h.1.symm⟩

theorem rangeMatchAt_shape {s n1 n2 r : List Char}
    (h : rangeMatchAt s = some (n1, n2, r)) : NumShape n1 ∧ NumShape n2 := by
  simp only [rangeMatchAt] at h
  split at h
  · cases h
  · split at h
    · cases h
    · split at h
      · cases h
      · simp only [Option.some.injEq, Prod.mk.injEq] at h
        obtain ⟨e1, e2, e3⟩ := h
        subst e1
        subst e2
        exact ⟨numAt_shape (by assumption), numAt_shape (by assumption)⟩

theorem rangeFindAux_mem : ∀ fuel prevD s a b,
    (a, b) ∈ rangeFindAux fuel prevD s → NumShape a ∧ NumShape b := by
  intro fuel
  induction fuel with
  | zero => intro prevD s a b h; simp [rangeFindAux] at h
  | succ f ih =>
    intro prevD s a b h
    cases s with
    | nil => simp [rangeFindAux] at h
    | cons c rest =>
      simp only [rangeFindAux] at h
      split_ifs at h with hp
      · exact ih _ _ _ _ h
      · split at h
        · rcases List.mem_cons.mp h with he | h'
          · obtain ⟨e1, e2⟩ := Prod.mk.injEq .. ▸ he
            subst e1
            subst e2
            exact rangeMatchAt_shape (by assumption)
          · exact ih _ _ _ _ h'
        · exact ih _ _ _ _ h

theorem numberFindAux_mem : ∀ fuel prevD s t,
    t ∈ numberFindAux fuel prevD s → NumShape t := by
  intro fuel
  induction fuel with
  | zero => intro prevD s t h; simp [numberFindAux] at h
  | succ f ih =>
    intro prevD s t h
    cases s with
    | nil => simp [numberFindAux] at h
    | cons c rest =>
      simp only [numberFindAux] at h
      split_ifs at h with hp
      · exact ih _ _ _ h
      · split at h
        · rcases List.mem_cons.mp h with rfl | h'
          · exact numAt_shape (by assumption)
          · exact ih _ _ _ h'
        · exact ih _ _ _ h

theorem addTokens_mem : ∀ toks seen parts x, x ∈ (addTokens seen parts toks).2 →
    x ∈ parts ∨ ∃ t ∈ toks, x = canonicalNumber t := by
  intro toks
  induction toks with
  | nil =>
    intro seen parts x h
    exact Or.inl (by simpa [addTokens] using h)
  | cons t ts ih =>
    intro seen parts x h
    simp only [addTokens] at h
    split_ifs at h with hc
    · rcases ih _ _ _ h with h' | ⟨t', ht', he⟩
      · rcases List.mem_append.mp h' with h'' | h''
        · exact Or.inl h''
        · rcases List.mem_singleton.mp h'' with rfl
          exact Or.inr ⟨t, List.mem_cons_self _ _, rfl⟩
      · exact Or.inr ⟨t', List.mem_cons_of_mem _ ht', he⟩
    · rcases ih _ _ _ h with h' | ⟨t', ht', he⟩
      · exact Or.inl h'
      · exact Or.inr ⟨t', List.mem_cons_of_mem _ ht', he⟩

theorem concatMap_mem {α β : Type} (f : α → List β) (l : List α) (x : β) :
    x ∈ concatMap f l ↔ ∃ a ∈ l, x ∈ f a := by
  induction l with
  | nil => simp [concatMap]
  | cons a as ih =>
    simp only [concatMap, List.mem_append, ih, List.mem_cons]
    constructor
    · rintro (h | ⟨a', ha', hx⟩)
      · exact ⟨a, Or.inl rfl, h⟩
      · exact ⟨a', Or.inr ha', hx⟩
    · rintro ⟨a', (rfl | ha'), hx⟩
      · exact Or.inl hx
      · exact Or.inr ⟨a', ha', hx⟩

theorem dropWhile_append_all {p : Char → Bool} {xs : List Char} (ys : List Char)
    (h : ∀ x ∈ xs, p x = true) : (xs ++ ys).dropWhile p = ys.dropWhile p := by
  induction xs with
  | nil => rfl
  | cons c cs ih =>
    rw [List.cons_append, List.dropWhile_cons, if_pos (h c (List.mem_cons_self c cs))]
    exact ih (fun x hx => h x (List.mem_cons_of_mem _ hx))

theorem dropWhile_append_ne_nil {p : Char → Bool} {xs : List Char} (ys : List Char)
    (h : xs.dropWhile p ≠ []) : (xs ++ ys).dropWhile p = xs.dropWhile p ++ ys := by
  induction xs with
  | nil => exact absurd rfl h
  | cons c cs ih =>
    rw [List.dropWhile_cons] at h
    rw [List.cons_append, List.dropWhile_cons, List.dropWhile_cons]
    split_ifs at h ⊢ with hc
    · exact ih h
    · simp

theorem all_of_dropWhile_nil {p : Char → Bool} {l : List Char}
    (h : l.dropWhile p = []) : ∀ x ∈ l, p x = true := by
  induction l with
  | nil => simp
  | cons c cs ih =>
    rw [List.dropWhile_cons] at h
    split_ifs at h with hc
    intro x hx
    rcases List.mem_cons.mp hx with rfl | hx'
    · exact hc
    · exact ih h x hx'

theorem head_dropWhile_false {p : Char → Bool} {l : List Char} {c : Char}
    (h : (l.dropWhile p).head? = some c) : p c = false := by
  induction l with
  | nil => simp at h
  | cons d ds ih =>
    rw [List.dropWhile_cons] at h
    split_ifs at h with hd
    · exact ih h
    · rw [List.head?_cons, Option.some.injEq] at h
      rw [← h]
      simpa using hd

theorem getLast?_mem {l : List Char} {c : Char} (h : l.getLast? = some c) : c ∈ l := by
  rw [← List.head?_reverse] at h
  rw [← List.mem_reverse]
  cases hr : l.reverse with
  | nil => rw [hr] at h; cases h
  | cons d t =>
    rw [hr, List.head?_cons, Option.some.injEq] at h
    rw [← h]
    exact List.mem_cons_self _ _

theorem head?_append_left {xs : List Char} (ys : List Char) (h : xs ≠ []) :
    (xs ++ ys).head? = xs.head? := by
  cases xs with
  | nil => exact absurd rfl h
  | cons c cs => rfl

theorem getLast?_append_right (xs : List Char) {ys : List Char} (h : ys ≠ []) :
    (xs ++ ys).getLast? = ys.getLast? := by
  rw [← List.head?_reverse, ← List.head?_reverse, List.reverse_append]
  exact head?_append_left _ (by simpa using h)

theorem rstripChar_eq_self {a : Char} {l : List Char} (h : l.getLast? ≠ some a) :
    rstripChar a l = l := by
  unfold rstripChar
  cases hx : l.reverse with
  | nil =>
    rw [List.dropWhile_nil, ← hx, List.reverse_reverse]
  | cons c cs =>
    have hc : (c == a) = false := by
      rw [beq_eq_false_iff_ne]
      intro he
      apply h
      rw [← List.head?_reverse, hx, List.head?_cons, he]
    rw [List.dropWhile_cons, hc]
    simp only [Bool.false_eq_true, if_false]
    rw [← hx, List.reverse_reverse]

theorem rstripChar_append_keep {a : Char} (l : List Char) {m : List Char}
    (h : rstripChar a m ≠ []) : rstripChar a (l ++ m) = l ++ rstripChar a m := by
  have hrev : m.reverse.dropWhile (fun c => c == a) ≠ [] := by
    intro hx
    apply h
    unfold rstripChar
    rw [hx]
    rfl
  unfold rstripChar
  rw [List.reverse_append, dropWhile_append_ne_nil _ hrev, List.reverse_append,
    List.reverse_reverse]

theorem rstripChar_append_all {a : Char} (l : List Char) {m : List Char}
    (h : ∀ x ∈ m, x = a) : rstripChar a (l ++ m) = rstripChar a l := by
  unfold rstripChar
  rw [List.reverse_append, dropWhile_append_all _ ?_]
  intro x hx
  rw [beq_iff_eq]
  exact h x (List.mem_reverse.mp hx)

theorem rstripChar_getLast {a : Char} (l : List Char) :
    (rstripChar a l).getLast? ≠ some a := by
  intro hlast
  rw [← List.head?_reverse] at hlast
  have : (rstripChar a l).reverse = l.reverse.dropWhile (fun c => c == a) := by
    unfold rstripChar
    rw [List.reverse_reverse]
  rw [this] at hlast
  have := head_dropWhile_false hlast
  simp at this

theorem rstripChar_nil_all {a : Char} {l : List Char} (h : rstripChar a l = []) :
    ∀ x ∈ l, x = a := by
  have hd : l.reverse.dropWhile (fun c => c == a) = [] := by
    have := congrArg List.reverse h
    unfold rstripChar at this
    rw [List.reverse_reverse] at this
    simpa using this
  intro x hx
  have := all_of_dropWhile_nil hd x (List.mem_reverse.mpr hx)
  simpa using this

theorem mem_rstripChar {a x : Char} {l : List Char} (h : x ∈ rstripChar a l) : x ∈ l := by
  unfold rstripChar at h
  rw [List.mem_reverse] at h
  have := mem_of_mem_dropWhile h
  rw [List.mem_reverse] at this
  exact this

theorem getLast?_ne_of_all_dig {ds : List Char} (hdig : ∀ c ∈ ds, isDig c = true)
    {a : Char} (ha : isDig a = false) : ds.getLast? ≠ some a := by
  intro h
  have hm := getLast?_mem h
  rw [hdig a hm] at ha
  cases ha

theorem numShape_strip {ds fs : List Char} (hdig : ∀ c ∈ ds, isDig c = true)
    (hfdig : ∀ c ∈ fs, isDig c = true) :
    pyStrip (ds ++ '.' :: fs) = ds ++ '.' :: fs := by
  apply pyStrip_eq_self
  intro c hc
  rcases List.mem_append.mp hc with hc' | hc'
  · exact isDig_not_space (hdig c hc')
  · rcases List.mem_cons.mp hc' with rfl | hc''
    · decide
    · exact isDig_not_space (hfdig c hc'')

theorem canon_dotToken {ds fs : List Char} (hne : ds ≠ [])
    (hdig : ∀ c ∈ ds, isDig c = true) (hfdig : ∀ c ∈ fs, isDig c = true) :
    canonicalNumber (ds ++ '.' :: fs)
      = if rstripChar '0' fs = [] then ds else ds ++ '.' :: rstripChar '0' fs := by
  have hne2 : ds ++ '.' :: fs ≠ [] := by
    simp [hne]
  have hdot : '.' ∈ ds ++ '.' :: fs :=
    List.mem_append_right _ (List.mem_cons_self _ _)
  have hcn : canonicalNumber (ds ++ '.' :: fs)
      = rstripChar '.' (rstripChar '0' (ds ++ '.' :: fs)) := by
    simp only [canonicalNumber, numShape_strip hdig hfdig, if_neg hne2, if_pos hdot]
  have hsplit : ds ++ '.' :: fs = (ds ++ ['.']) ++ fs := by
    simp
  split_ifs with hfz
  · have hallz : ∀ x ∈ fs, x = '0' := rstripChar_nil_all hfz
    have e1 : rstripChar '0' (ds ++ '.' :: fs) = ds ++ ['.'] := by
      rw [hsplit, rstripChar_append_all _ hallz]
      apply rstripChar_eq_self
      rw [List.getLast?_concat]
      decide
    have e2 : rstripChar '.' (ds ++ ['.']) = ds := by
      rw [rstripChar_append_all ds (by simp)]
      exact rstripChar_eq_self (getLast?_ne_of_all_dig hdig (by decide))
    rw [hcn, e1, e2]
  · have e1 : rstripChar '0' (ds ++ '.' :: fs) = (ds ++ ['.']) ++ rstripChar '0' fs := by
      rw [hsplit, rstripChar_append_keep _ hfz]
    have hlastd : (rstripChar '0' fs).getLast? ≠ some '.' := by
      apply getLast?_ne_of_all_dig ?_ (by decide)
      intro c hc
      exact hfdig c (mem_rstripChar hc)
    have e2 : rstripChar '.' ((ds ++ ['.']) ++ rstripChar '0' fs)
        = (ds ++ ['.']) ++ rstripChar '0' fs := by
      apply rstripChar_eq_self
      rw [getLast?_append_right _ hfz]
      exact hlastd
    rw [hcn, e1, e2]
    simp

theorem canon_numShape {t : List Char} (h : NumShape t) :
    PartShape (canonicalNumber t) := by
  rcases h with ⟨ds, fs, hne, hlen, hdig, hc⟩
  rcases hc with he | ⟨hfne, hfdig, he⟩
  · rw [he, canon_digits ds hne hdig]
    exact Or.inl ⟨valAux 0 ds, valAux_lt_10000 hdig hlen, rfl⟩
  · rw [he, canon_dotToken hne hdig hfdig]
    split_ifs with hfz
    · exact Or.inr (Or.inr ⟨ds, hne, hlen, hdig, rfl⟩)
    · refine Or.inr (Or.inl ⟨ds, rstripChar '0' fs, hne, hlen, hdig, hfz,
        fun c hc => hfdig c (mem_rstripChar hc), rstripChar_getLast _, rfl⟩)

theorem canon_partShape {p : List Char} (h : PartShape p) :
    PartShape (canonicalNumber p) := by
  rcases h with ⟨n, hn, he⟩ | ⟨ds, fs, hne, hlen, hdig, hfne, hfdig, hlast, he⟩ |
    ⟨ds, hne, hlen, hdig, he⟩
  · rw [he, canon_pyNatRepr]
    exact Or.inl ⟨n, hn, rfl⟩
  · rw [he, canon_dotToken hne hdig hfdig]
    have hfz : rstripChar '0' fs ≠ [] := by
      rw [rstripChar_eq_self hlast]
      exact hfne
    rw [if_neg hfz, rstripChar_eq_self hlast]
    exact Or.inr (Or.inl ⟨ds, fs, hne, hlen, hdig, hfne, hfdig, hlast, rfl⟩)
  · rw [he, canon_digits ds hne hdig]
    exact Or.inl ⟨valAux 0 ds, valAux_lt_10000 hdig hlen, rfl⟩

theorem numShape_noDot {t : List Char} (h : NumShape t) (hd : '.' ∉ t) :
    t ≠ [] ∧ t.length ≤ 4 ∧ (∀ c ∈ t, isDig c = true) := by
  rcases h with ⟨ds, fs, hne, hlen, hdig, he | ⟨_, _, he⟩⟩
  · refine ⟨?_, ?_, ?_⟩ <;> rw [he] <;> assumption
  · exfalso
    apply hd
    rw [he]
    exact List.mem_append_right _ (List.mem_cons_self _ _)

theorem pyIntRepr_ofNat (m : Nat) : pyIntRepr (Int.ofNat m) = pyNatRepr m := by
  rw [Int.ofNat_eq_coe, pyIntRepr, if_neg (by omega)]
  exact congrArg pyNatRepr (by omega)

theorem partShape_intRepr {i : Int} (h0 : 0 ≤ i) (h1 : i < 10000) :
    PartShape (canonicalNumber (pyIntRepr i)) := by
  rw [canon_pyIntRepr]
  refine Or.inl ⟨i.toNat, by omega, ?_⟩
  rw [pyIntRepr, if_neg (by omega)]

theorem expandRange_part {a b x : List Char} (ha : NumShape a) (hb : NumShape b)
    (hx : x ∈ expandRange a b) : PartShape (canonicalNumber x) := by
  simp only [expandRange] at hx
  split_ifs at hx with hdot
  · rcases List.mem_cons.mp hx with rfl | hx'
    · exact canon_partShape (canon_numShape ha)
    · rcases List.mem_cons.mp hx' with rfl | hx''
      · exact canon_partShape (canon_numShape hb)
      · simp at hx''
  · have hda : '.' ∉ a := fun hm => hdot (Or.inl hm)
    have hdb : '.' ∉ b := fun hm => hdot (Or.inr hm)
    obtain ⟨hnea, hlena, hdiga⟩ := numShape_noDot ha hda
    obtain ⟨hneb, hlenb, hdigb⟩ := numShape_noDot hb hdb
    have hva := valAux_lt_10000 hdiga hlena
    have hvb := valAux_lt_10000 hdigb hlenb
    have hva' : (0 : Int) ≤ ((valAux 0 a : Nat) : Int) ∧
        (((valAux 0 a : Nat) : Int)) < 10000 := by
      constructor
      · exact Int.natCast_nonneg _
      · exact_mod_cast hva
    have hvb' : (0 : Int) ≤ ((valAux 0 b : Nat) : Int) ∧
        (((valAux 0 b : Nat) : Int)) < 10000 := by
      constructor
      · exact Int.natCast_nonneg _
      · exact_mod_cast hvb
    rw [pyIntParse_digits a hnea hdiga, pyIntParse_digits b hneb hdigb] at hx
    simp only at hx
    set lo : Int := if ((valAux 0 b : Nat) : Int) < ((valAux 0 a : Nat) : Int)
      then ((valAux 0 b : Nat) : Int) else ((valAux 0 a : Nat) : Int) with hloe
    set hi : Int := if ((valAux 0 b : Nat) : Int) < ((valAux 0 a : Nat) : Int)
      then ((valAux 0 a : Nat) : Int) else ((valAux 0 b : Nat) : Int) with hhie
    have hlo : 0 ≤ lo ∧ lo < 10000 := by
      rw [hloe]
      split_ifs <;> omega
    have hhi : 0 ≤ hi ∧ hi < 10000 := by
      rw [hhie]
      split_ifs <;> omega
    split_ifs at hx with hbig
    · rcases List.mem_cons.mp hx with rfl | hx'
      · exact partShape_intRepr hlo.1 hlo.2
      · rcases List.mem_cons.mp hx' with rfl | hx''
        · exact partShape_intRepr hhi.1 hhi.2
        · simp at hx''
    · simp only [intRangeList, List.mem_map, List.mem_range] at hx
      obtain ⟨k, hk, rfl⟩ := hx
      obtain ⟨j, hj, rfl⟩ := hk
      rw [Int.ofNat_eq_coe]
      apply partShape_intRepr
      · omega
      · omega

theorem extractFromText_partShape {text p : List Char}
    (h : p ∈ extractFromText text) : PartShape p := by
  simp only [extractFromText] at h
  split_ifs at h with hemp
  · simp at h
  · rcases addTokens_mem _ _ _ _ h with h1 | ⟨tok, htok, he⟩
    · rcases addTokens_mem _ _ _ _ h1 with h2 | ⟨tok, htok, he⟩
      · simp at h2
      · rcases (concatMap_mem _ _ _).mp htok with ⟨ab, hab, hab2⟩
        obtain ⟨a1, b1⟩ := ab
        have hsh := rangeFindAux_mem _ _ _ _ _ hab
        rw [he]
        exact expandRange_part hsh.1 hsh.2 hab2
    · rw [he]
      exact canon_numShape (numberFindAux_mem _ _ _ _ htok)

theorem extractPartsFromBody_partShape {b p : List Char}
    (h : p ∈ extractPartsFromBody b) : PartShape p :=
  extractFromText_partShape h

theorem matchTitleAt_digits {s t after : List Char}
    (h : matchTitleAt s = some (t, after)) :
    t ≠ [] ∧ ∀ c ∈ t, isDig c = true := by
  simp only [matchTitleAt] at h
  split_ifs at h with hg
  split at h
  · split_ifs at h with hcfr
    simp only [Option.some.injEq, Prod.mk.injEq] at h
    obtain ⟨h1, -⟩ := h
    rw [← h1]
    refine ⟨?_, fun c hc => (mem_takeWhile hc).1⟩
    intro hnil
    rw [hnil] at hg
    simp at hg
  · cases h

theorem titleFindAux_title : ∀ fuel s t b, (t, b) ∈ titleFindAux fuel s →
    t ≠ [] ∧ ∀ c ∈ t, isDig c = true := by
  intro fuel
  induction fuel with
  | zero => intro s t b h; simp [titleFindAux] at h
  | succ f ih =>
    intro s t b h
    cases s with
    | nil => simp [titleFindAux] at h
    | cons c rest =>
      simp only [titleFindAux] at h
      split at h
      · exact ih _ _ _ h
      · rcases List.mem_cons.mp h with he | h'
        · obtain ⟨e1, e2⟩ := Prod.mk.injEq .. ▸ he
          subst e1
          exact matchTitleAt_digits (by assumption)
        · exact ih _ _ _ h'

theorem titleSegments_title {raw t b : List Char} (h : (t, b) ∈ titleSegments raw) :
    t ≠ [] ∧ ∀ c ∈ t, isDig c = true :=
  titleFindAux_title _ _ _ _ h

theorem refs_shape (o : Option (List Char)) :
    ∀ ref ∈ (normalizeCfrPart o).references,
      (ref.title = [] ∨ ∃ n : Nat, ref.title = pyNatRepr n) ∧ PartShape ref.part := by
  cases o with
  | none => simp [normalizeCfrPart]
  | some s =>
    simp only [normalizeCfrPart]
    split_ifs with h1 h2 h3 h4
    · simp
    · intro ref href
      have hstream : ref ∈ refStream (pyStrip s) :=
        (keepFirst_sublist _ _).subset href
      rcases (concatMap_mem _ _ _).mp hstream with ⟨tb, htb, hmem⟩
      obtain ⟨t, b⟩ := tb
      rcases List.mem_map.mp hmem with ⟨p, hp, he⟩
      obtain ⟨htne, htdig⟩ := titleSegments_title htb
      rw [← he]
      constructor
      · right
        rw [canon_digits t htne htdig]
        exact ⟨valAux 0 t, rfl⟩
      · exact extractPartsFromBody_partShape hp
    · simp
    · intro ref href
      rcases List.mem_map.mp href with ⟨p, hp, he⟩
      rw [← he]
      exact ⟨Or.inl rfl, extractPartsFromBody_partShape hp⟩
    · simp

/-- C5 counterexample: the input `42 CFR Part 00.5` produces the part
`00.5`, which keeps its leading zeros — the decimal branch of the
canonicalizer never strips them, so not every emitted part is a canonical
numeral in the claimed sense. -/
theorem claim_C5_cex :
    (normalizeCfrPart (some (strL ("42 CFR Part 00.5")))).references
      = [⟨strL ("42"), strL ("00.5")⟩] ∧
    noLeadingZero (strL ("00.5")) = false := by
  refine ⟨by decide, by decide⟩

/-- C5 as amended: every title in the references is the canonical rendering
of a natural number (or the empty string in `missing_title` results) and so
has no leading zeros; every part is non-empty and, when it contains a
decimal point, ends in neither `0` nor the point itself (no superfluous
trailing decimal zeros, no trailing decimal point) — but parts may keep
leading zeros. -/
theorem claim_C5 (o : Option (List Char)) :
    ∀ ref ∈ (normalizeCfrPart o).references,
      (ref.title = [] ∨ ∃ n : Nat, ref.title = pyNatRepr n) ∧
      noLeadingZero ref.title = true ∧
      ref.part ≠ [] ∧
      ('.' ∈ ref.part →
        ref.part.getLast? ≠ some '0' ∧ ref.part.getLast? ≠ some '.') := by
  intro ref href
  obtain ⟨htitle, hpart⟩ := refs_shape o ref href
  refine ⟨htitle, ?_, ?_, ?_⟩
  · rcases htitle with he | ⟨n, he⟩
    · rw [he]
      rfl
    · rw [he]
      exact noLeadingZero_pyNatRepr n
  · rcases hpart with ⟨n, _, he⟩ | ⟨ds, fs, hne, _, _, hfne, _, _, he⟩ |
      ⟨ds, hne, _, _, he⟩
    · rw [he]
      exact pyNatRepr_ne_nil n
    · rw [he]
      simp
    · rw [he]
      exact hne
  · intro hdotmem
    rcases hpart with ⟨n, _, he⟩ | ⟨ds, fs, hne, _, _, hfne, hfdig, hlast, he⟩ |
      ⟨ds, _, _, hdig, he⟩
    · rw [he] at hdotmem
      exact absurd rfl (isDig_ne_dot (pyNatRepr_all_dig n '.' hdotmem))
    · have hl : ref.part.getLast? = fs.getLast? := by
        rw [he, show ds ++ '.' :: fs = (ds ++ ['.']) ++ fs by simp,
          getLast?_append_right _ hfne]
      rw [hl]
      exact ⟨hlast, getLast?_ne_of_all_dig hfdig (by decide)⟩
    · rw [he] at hdotmem
      exact absurd rfl (isDig_ne_dot (hdig '.' hdotmem))

/-- C5 witness: on a concrete parsed citation the title `42` and the part
`412` satisfy the amended canonical-form guarantees. -/
theorem claim_C5_witness :
    noLeadingZero (strL ("42")) = true ∧ strL ("412") ≠ [] := by
  have h := claim_C5 (some (strL ("42 CFR Part 412")))
    ⟨strL ("42"), strL ("412")⟩ (by decide)
  exact ⟨h.2.1, h.2.2.1⟩

/-- C9: every part numeral the normalizer emits begins with an integer
portion of at most four digits — a standalone run of five or more digits is
never emitted as a part — and in particular `42 CFR Part 12345` yields no
references and is classified `unparsed`. -/
theorem claim_C9 :
    (∀ o : Option (List Char), ∀ ref ∈ (normalizeCfrPart o).references,
      (ref.part.takeWhile isDig).length ≤ 4) ∧
    normalizeCfrPart (some (strL ("42 CFR Part 12345")))
      = ⟨some (strL ("42 CFR Part 12345")), CfrStatus.unparsed, []⟩ := by
  constructor
  · intro o ref href
    obtain ⟨-, hpart⟩ := refs_shape o ref href
    rcases hpart with ⟨n, hn, he⟩ | ⟨ds, fs, hne, hlen, hdig, _, _, _, he⟩ |
      ⟨ds, hne, hlen, hdig, he⟩
    · rw [he, takeWhile_eq_self (pyNatRepr_all_dig n)]
      exact pyNatRepr_length_le n 4 (by norm_num at hn ⊢; omega) (by omega)
    · rw [he, takeWhile_append_stop hdig (by decide)]
      exact hlen
    · rw [he, takeWhile_eq_self hdig]
      exact hlen
  · decide

/-- C9 witness: a concrete reference from a parsed citation has an integer
portion of at most four digits. -/
theorem claim_C9_witness :
    ((strL ("412")).takeWhile isDig).length ≤ 4 :=
  claim_C9.1 (some (strL ("42 CFR Part 412"))) ⟨strL ("42"), strL ("412")⟩ (by decide)

theorem dashFix_pred (P : Char → Bool) (h1 : P '-' = P '–') (h2 : P '-' = P '—')
    (c : Char) : P (dashFix c) = P c := by
  unfold dashFix
  split_ifs with h
  · rcases h with rfl | rfl
    · exact h1
    · exact h2
  · rfl

theorem dashFix_of_isDig {c : Char} (h : isDig c = true) : dashFix c = c := by
  unfold dashFix
  split_ifs with hd
  · rcases hd with rfl | rfl <;> exact absurd h (by decide)
  · rfl

theorem dashFix_idem (c : Char) : dashFix (dashFix c) = dashFix c := by
  by_cases h : c = '–' ∨ c = '—'
  · rcases h with rfl | rfl <;> decide
  · simp [dashFix, h]

theorem matchCI_letter_ne_dash {p : Char} (hp : 97 ≤ p.toNat ∧ p.toNat ≤ 122)
    (c : Char) (hc : c.toNat = 45 ∨ c.toNat = 8211 ∨ c.toNat = 8212) :
    matchCI p c = false := by
  have h1 : (c == p) = false := by
    rw [beq_eq_false_iff_ne]
    intro he
    have := congrArg Char.toNat he
    omega
  have h2 : (65 ≤ c.toNat && c.toNat ≤ 90 && c.toNat + 32 == p.toNat) = false := by
    rcases hc with h | h | h <;> simp [h]
  simp [matchCI, h1, h2]

theorem matchCI_dashFix {p : Char} (hp : 97 ≤ p.toNat ∧ p.toNat ≤ 122) (c : Char) :
    matchCI p (dashFix c) = matchCI p c := by
  apply dashFix_pred
  · rw [matchCI_letter_ne_dash hp '-' (by decide),
      matchCI_letter_ne_dash hp '–' (by decide)]
  · rw [matchCI_letter_ne_dash hp '-' (by decide),
      matchCI_letter_ne_dash hp '—' (by decide)]

theorem prefixCI_dashFix {pat : List Char}
    (hp : ∀ p ∈ pat, 97 ≤ p.toNat ∧ p.toNat ≤ 122) :
    ∀ s, prefixCI pat (s.map dashFix) = prefixCI pat s := by
  induction pat with
  | nil => intro s; rfl
  | cons p ps ih =>
    intro s
    cases s with
    | nil => rfl
    | cons c cs =>
      simp only [List.map_cons, prefixCI]
      rw [matchCI_dashFix (hp p (List.mem_cons_self p ps)) c,
        ih (fun q hq => hp q (List.mem_cons_of_mem _ hq)) cs]

theorem takeWhile_isDig_dashFix (s : List Char) :
    (s.map dashFix).takeWhile isDig = s.takeWhile isDig := by
  induction s with
  | nil => rfl
  | cons c cs ih =>
    simp only [List.map_cons, List.takeWhile_cons,
      dashFix_pred isDig (by decide) (by decide) c]
    split_ifs with h
    · rw [ih, dashFix_of_isDig h]
    · rfl

theorem dropWhile_isPySpace_dashFix (s : List Char) :
    (s.map dashFix).dropWhile isPySpace = (s.dropWhile isPySpace).map dashFix := by
  induction s with
  | nil => rfl
  | cons c cs ih =>
    simp only [List.map_cons, List.dropWhile_cons,
      dashFix_pred isPySpace (by decide) (by decide) c]
    split_ifs with h
    · exact ih
    · rfl

theorem notWordStart_dashFix (s : List Char) :
    notWordStart (s.map dashFix) = notWordStart s := by
  cases s with
  | nil => rfl
  | cons c cs =>
    simp only [List.map_cons, notWordStart,
      dashFix_pred isWordChar (by decide) (by decide) c]

theorem map_drop_dashFix (n : Nat) (s : List Char) :
    (s.map dashFix).drop n = (s.drop n).map dashFix := by
  induction n generalizing s with
  | zero => rfl
  | succ k ih =>
    cases s with
    | nil => rfl
    | cons c cs => exact ih cs

theorem pyStrip_dashFix (s : List Char) :
    pyStrip (s.map dashFix) = (pyStrip s).map dashFix := by
  unfold pyStrip
  rw [dropWhile_isPySpace_dashFix, ← List.map_reverse, dropWhile_isPySpace_dashFix,
    ← List.map_reverse]

theorem matchTitleAt_dashFix (s : List Char) :
    matchTitleAt (s.map dashFix)
      = (matchTitleAt s).map (fun p => (p.1, p.2.map dashFix)) := by
  simp only [matchTitleAt, takeWhile_isDig_dashFix]
  split_ifs with hg
  · rfl
  · rw [map_drop_dashFix, dropWhile_isPySpace_dashFix]
    rcases hx : (s.drop (s.takeWhile isDig).length).dropWhile isPySpace
      with _ | ⟨c, _ | ⟨f, _ | ⟨r, rest⟩⟩⟩
    · rfl
    · rfl
    · rfl
    · simp only [List.map_cons,
        @matchCI_dashFix 'c' (by decide) c,
        @matchCI_dashFix 'f' (by decide) f,
        @matchCI_dashFix 'r' (by decide) r,
        notWordStart_dashFix]
      split_ifs with hc
      · rfl
      · rfl

theorem lookTitle_dashFix (w : Bool) (s : List Char) :
    lookTitle w (s.map dashFix) = lookTitle w s := by
  simp only [lookTitle, matchTitleAt_dashFix]
  cases matchTitleAt s <;> rfl

theorem splitBody_dashFix (l : List Char) : ∀ w,
    splitBody w (l.map dashFix)
      = ((splitBody w l).1.map dashFix, (splitBody w l).2.map dashFix) := by
  induction l with
  | nil => intro w; rfl
  | cons c cs ih =>
    intro w
    simp only [List.map_cons, splitBody]
    rw [show (dashFix c :: cs.map dashFix) = (c :: cs).map dashFix from rfl,
      lookTitle_dashFix]
    split_ifs with h
    · rfl
    · rw [dashFix_pred isWordChar (by decide) (by decide) c, ih (isWordChar c)]
      rfl

theorem titleFindAux_dashFix : ∀ fuel s,
    titleFindAux fuel (s.map dashFix)
      = (titleFindAux fuel s).map (fun p => (p.1, p.2.map dashFix)) := by
  intro fuel
  induction fuel with
  | zero => intro s; rfl
  | succ f ih =>
    intro s
    cases s with
    | nil => rfl
    | cons c cs =>
      simp only [List.map_cons, titleFindAux]
      rw [show (dashFix c :: cs.map dashFix) = (c :: cs).map dashFix from rfl,
        matchTitleAt_dashFix]
      cases hm : matchTitleAt (c :: cs) with
      | none =>
        simp only [Option.map_none']
        exact ih cs
      | some pair =>
        obtain ⟨ds, after⟩ := pair
        simp only [Option.map_some']
        rw [splitBody_dashFix, ih]
        rfl

theorem titleSegments_dashFix (raw : List Char) :
    titleSegments (raw.map dashFix)
      = (titleSegments raw).map (fun p => (p.1, p.2.map dashFix)) := by
  unfold titleSegments
  rw [List.length_map]
  exact titleFindAux_dashFix _ _

theorem matchPartHintAt_dashFix (s : List Char) :
    matchPartHintAt (s.map dashFix) = matchPartHintAt s := by
  simp only [matchPartHintAt,
    @prefixCI_dashFix (strL ("part")) (by decide) s, map_drop_dashFix]
  congr 1
  rcases hx : s.drop 4 with _ | ⟨c, r2⟩
  · rfl
  · simp only [List.map_cons,
      dashFix_pred (fun x => x == 's' || x == 'S') (by decide) (by decide) c,
      notWordStart_dashFix,
      dashFix_pred isWordChar (by decide) (by decide) c]

theorem partHintFindAux_dashFix (s : List Char) : ∀ w i,
    partHintFindAux w i (s.map dashFix) = partHintFindAux w i s := by
  induction s with
  | nil => intro w i; rfl
  | cons c cs ih =>
    intro w i
    simp only [List.map_cons, partHintFindAux]
    rw [show (dashFix c :: cs.map dashFix) = (c :: cs).map dashFix from rfl,
      matchPartHintAt_dashFix]
    split_ifs with h
    · rfl
    · rw [dashFix_pred isWordChar (by decide) (by decide) c, ih]

theorem partHintFind_dashFix (s : List Char) :
    partHintFind (s.map dashFix) = partHintFind s :=
  partHintFindAux_dashFix s false 0

theorem extractPartsFromBody_dashFix (b : List Char) :
    extractPartsFromBody (b.map dashFix) = extractPartsFromBody b := by
  unfold extractPartsFromBody
  rw [List.map_map]
  have hmm : List.map (dashFix ∘ dashFix) b = List.map dashFix b := by
    congr 1
    funext c
    exact dashFix_idem c
  rw [hmm]

theorem concatMap_map {α β γ : Type} (g : β → List γ) (h : α → β) (l : List α) :
    concatMap g (l.map h) = concatMap (fun x => g (h x)) l := by
  induction l with
  | nil => rfl
  | cons a as ih => simp only [List.map_cons, concatMap, ih]

theorem concatMap_congr {α β : Type} {f g : α → List β} (h : ∀ x, f x = g x)
    (l : List α) : concatMap f l = concatMap g l := by
  induction l with
  | nil => rfl
  | cons a as ih => simp only [concatMap, h a, ih]

theorem refStream_dashFix (raw : List Char) :
    refStream (raw.map dashFix) = refStream raw := by
  unfold refStream
  rw [titleSegments_dashFix, concatMap_map]
  exact concatMap_congr (fun tb => by rw [extractPartsFromBody_dashFix]) _

/-- C10: replacing every en dash and em dash of the input by an ASCII hyphen
leaves the status and the references of the normalization result unchanged
(only the `raw` field can differ): the title scanner, the part-keyword
search and the part extractor are all insensitive to the substitution, and
the extractor performs it itself before scanning. -/
theorem claim_C10 (s : List Char) :
    (normalizeCfrPart (some (s.map dashFix))).status
      = (normalizeCfrPart (some s)).status ∧
    (normalizeCfrPart (some (s.map dashFix))).references
      = (normalizeCfrPart (some s)).references := by
  have hacc : accumulatedRefs ((pyStrip s).map dashFix)
      = accumulatedRefs (pyStrip s) := by
    unfold accumulatedRefs
    rw [refStream_dashFix]
  have hts : titleSegments ((pyStrip s).map dashFix)
      = (titleSegments (pyStrip s)).map (fun p => (p.1, p.2.map dashFix)) :=
    titleSegments_dashFix _
  simp only [normalizeCfrPart, pyStrip_dashFix, hacc, hts,
    extractPartsFromBody_dashFix, partHintFind_dashFix, List.map_eq_nil_iff,
    ne_eq]
  split_ifs <;> exact ⟨rfl, rfl⟩
